import Mathlib

/-!
# Verification of the filesystem-backed cache of `rust-webserver`

This file gives a shallow embedding of `src/server/cache.rs` and settles the
frozen claims about it.  The on-disk cache tree
`<root>/<bucket-hash>/<slot>/{key,data}` is modelled as nested association
lists; file contents are lists of characters; fallible operations return
`Option` or an explicit result type with a `panicked` constructor mirroring
Rust panics (`panic!` at cache.rs:194 and the `.unwrap()` calls at
cache.rs:203 and cache.rs:242).  The hash function (`DefaultHasher`, whose
concrete output is unspecified) is an explicit parameter `h : Str → Nat`;
every theorem holds for an arbitrary deterministic hash.
-/

namespace RustCache

/-- File and directory-name contents are modelled as lists of characters. -/
abbrev Str := List Char

/-- Association-list lookup: models looking up a child of a directory (or a
key of a `HashMap`) by name.  Returns the first binding. -/
def alookup {α : Type} : List (Str × α) → Str → Option α
  | [], _ => none
  | (k', v) :: rest, k => if k' = k then some v else alookup rest k

/-- Association-list overwrite of the first binding of `k` (models rewriting
an existing file or an existing `HashMap` value in place). -/
def aset {α : Type} : List (Str × α) → Str → α → List (Str × α)
  | [], _, _ => []
  | (k', v') :: rest, k, v =>
    if k' = k then (k', v) :: rest else (k', v') :: aset rest k v

/-- One chain slot `<bucket>/<n>/`: the contents of its `key` and `data`
files, `none` when the file is absent or cannot be opened. -/
structure Slot where
  key : Option Str
  data : Option Str
  deriving DecidableEq

/-- A bucket directory: its child slot directories, keyed by name. -/
abbrev Bucket := List (Str × Slot)

/-- The cache data folder: bucket directories keyed by (decimal hash) name. -/
abbrev FS := List (Str × Bucket)

/-- Rust `char::is_whitespace` (the Unicode `White_Space` property), used by
`str::trim` in `cache.rs` (key comparison and index-line parsing). -/
def rustIsWhitespace (c : Char) : Bool :=
  (9 ≤ c.toNat && c.toNat ≤ 13) || c.toNat = 32 || c.toNat = 133 ||
  c.toNat = 160 || c.toNat = 5760 || (8192 ≤ c.toNat && c.toNat ≤ 8202) ||
  c.toNat = 8232 || c.toNat = 8233 || c.toNat = 8239 || c.toNat = 8287 ||
  c.toNat = 12288

/-- Rust `str::trim`: drop Unicode whitespace from both ends. -/
def rustTrim (s : Str) : Str :=
  ((s.dropWhile rustIsWhitespace).reverse.dropWhile rustIsWhitespace).reverse

/-- Decimal digit value of a character, if it is one (`'0'..='9'`). -/
def digitVal (c : Char) : Option Nat :=
  if 48 ≤ c.toNat ∧ c.toNat ≤ 57 then some (c.toNat - 48) else none

/-- Accumulating decimal parse of a digit string. -/
def parseDigitsAcc : Nat → Str → Option Nat
  | acc, [] => some acc
  | acc, c :: rest =>
    match digitVal c with
    | none => none
    | some d => parseDigitsAcc (10 * acc + d) rest

/-- Rust `usize::from_str`: an optional `+` sign followed by at least one
decimal digit, erroring on overflow past `2^64 - 1` (64-bit target).  Used
(unwrapped!) on slot-directory names at cache.rs:203 and cache.rs:242. -/
def parseUsize (s : Str) : Option Nat :=
  match s with
  | [] => none
  | c :: rest =>
    if c = '+' then
      match rest with
      | [] => none
      | _ :: _ => (parseDigitsAcc 0 rest).bind fun n =>
          if n < 2 ^ 64 then some n else none
    else
      (parseDigitsAcc 0 (c :: rest)).bind fun n =>
        if n < 2 ^ 64 then some n else none

/-- Little-endian decimal digits, with explicit fuel (always called with
fuel at least the number itself, so the fuel never runs out). -/
def toDigitsCore : Nat → Nat → List Nat
  | 0, _ => []
  | _ + 1, 0 => []
  | f + 1, n + 1 => (n + 1) % 10 :: toDigitsCore f ((n + 1) / 10)

/-- Little-endian decimal digits of `n` (empty for `0`). -/
def toDigitsRev (n : Nat) : List Nat := toDigitsCore n n

/-- Big-endian decimal digits of `n` (`[0]` for `0`). -/
def natDigits (n : Nat) : List Nat :=
  if n = 0 then [0] else (toDigitsRev n).reverse

/-- The character for digit `d`. -/
def digitChar (d : Nat) : Char := Char.ofNat (48 + d)

/-- Rust `u64::to_string` / `usize::to_string` / `format!` of an integer:
its decimal representation.  Bucket directories are named
`format!("{}", hash)` and slot directories `format!(".../{}", n)`. -/
def natToStr (n : Nat) : Str := (natDigits n).map digitChar

/-- Outcome of a Rust computation that can `panic!` (or `.unwrap()` a
failure): either a normal value or a process abort. -/
inductive PRes (α : Type) where
  | panicked
  | val (a : α)
  deriving DecidableEq

/-- Does this slot's key record match the requested url?  The code compares
`content.trim() == url` (cache.rs:214); an unreadable record never matches. -/
def slotMatches (s : Slot) (url : Str) : Bool :=
  match s.key with
  | none => false
  | some content => decide (rustTrim content = url)

/-- The scan loop of `Cache::check_subdirs_for_url` (cache.rs:206-224): walk
the parsed chain numbers in order; for each, try to open
`<bucket>/<n>/key`; skip the slot when the open fails; return the first `n`
whose trimmed key record equals `url`. -/
def scanChain (bucket : Bucket) (url : Str) : List Nat → Option Nat
  | [] => none
  | n :: rest =>
    match alookup bucket (natToStr n) with
    | none => scanChain bucket url rest
    | some slot =>
      match slot.key with
      | none => scanChain bucket url rest
      | some content =>
        if rustTrim content = url then some n else scanChain bucket url rest

/-- All-or-nothing map over a list, failing if any element fails: models
`.map(|d| usize::from_str(&d).unwrap())` over a listing, where any single
parse failure aborts (panics) the whole map. -/
def traverseOpt {α β : Type} (f : α → Option β) : List α → Option (List β)
  | [] => some []
  | a :: l =>
    match f a, traverseOpt f l with
    | some b, some bs => some (b :: bs)
    | _, _ => none

/-- `Cache::check_subdirs_for_url` (cache.rs:199-226): list the bucket's
child directories (a missing bucket directory makes `get_sub_folders` fail,
turned into `None` by `.ok()?`), parse every child name as `usize`
(`.unwrap()` — a malformed name panics), then scan the chain. -/
def check_subdirs_for_url (fs : FS) (url : Str) (hash_dir : Str) :
    PRes (Option Nat) :=
  match alookup fs hash_dir with
  | none => .val none
  | some bucket =>
    match traverseOpt parseUsize (bucket.map Prod.fst) with
    | none => .panicked
    | some chain => .val (scanChain bucket url chain)

/-- Result of `Cache::get_from_cache`: payload on a hit, an error string in
the code (collapsed here to a bare `err`), or a panic. -/
inductive CacheGetRes where
  | ok (payload : Str)
  | err
  | panicked
  deriving DecidableEq

/-- `Cache::get_from_cache` (cache.rs:176-197): hash the url; if no
top-level directory is named after the hash, report a miss error; otherwise
scan the chain; `None` from the scan hits the `panic!` at cache.rs:194; on a
hit open `<bucket>/<slot>/data` (failure to open is an error via `?`; the
ignored `read_to_string` is modelled as reading the full content). -/
def get_from_cache (h : Str → Nat) (fs : FS) (url : Str) : CacheGetRes :=
  let hash_name := natToStr (h url)
  match alookup fs hash_name with
  | none => .err
  | some bucket =>
    match check_subdirs_for_url fs url hash_name with
    | .panicked => .panicked
    | .val none => .panicked
    | .val (some i) =>
      match alookup bucket (natToStr i) with
      | none => .err
      | some slot =>
        match slot.data with
        | none => .err
        | some d => .ok d

/-- `std::fs::create_dir` with its result ignored (cache.rs:256): create the
slot directory if absent (new directories are listed after existing ones). -/
def createDirIfAbsent (b : Bucket) (name : Str) : Bucket :=
  match alookup b name with
  | some _ => b
  | none => b ++ [(name, { key := none, data := none })]

/-- Write (truncate-or-create) the `data` file of slot `name`
(cache.rs:258-267); if the slot directory is missing the `open` fails and
the failure is silently ignored by the code. -/
def writeData (b : Bucket) (name : Str) (d : Str) : Bucket :=
  match alookup b name with
  | none => b
  | some slot => aset b name { slot with data := some d }

/-- Write (truncate-or-create) the `key` file of slot `name`
(cache.rs:270-279), mirroring `writeData`. -/
def writeKey (b : Bucket) (name : Str) (m : Str) : Bucket :=
  match alookup b name with
  | none => b
  | some slot => aset b name { slot with key := some m }

/-- `Cache::put_in_cache` (cache.rs:228-281): hash the url; create the
bucket directory if absent; parse all child names (`.unwrap()` — panics on a
malformed name); scan for an existing slot for this url; the target slot is
`found_url.or(chain.max().map(|x| x+1)).or(Some(0)).unwrap()`; create the
slot directory and write the `data` then `key` files.  The root folder is
assumed present (`Cache::new` creates it), so the `Err` paths of
`get_sub_folders` do not arise in this model. -/
def put_in_cache (h : Str → Nat) (fs : FS) (url meta data : Str) :
    PRes FS :=
  let hash_name := natToStr (h url)
  let fs1 : FS :=
    match alookup fs hash_name with
    | some _ => fs
    | none => fs ++ [(hash_name, [])]
  match alookup fs1 hash_name with
  | none => .val fs1
  | some bucket =>
    match traverseOpt parseUsize (bucket.map Prod.fst) with
    | none => .panicked
    | some chain =>
      match check_subdirs_for_url fs1 url hash_name with
      | .panicked => .panicked
      | .val found_url =>
        let n := (found_url.or (chain.max?.map (· + 1))).getD 0
        let bucket1 := createDirIfAbsent bucket (natToStr n)
        let bucket2 := writeData bucket1 (natToStr n) data
        let bucket3 := writeKey bucket2 (natToStr n) meta
        .val (aset fs1 hash_name bucket3)

/-- `Cache::get` (cache.rs:155-167): try the cache; on `Ok` return the
cached payload without fetching; on *any* `Err` invoke the remote fetch
(`ureq::get`), propagate a fetch failure as the error, and on fetch success
write the entry through `put_in_cache` (whose meta argument is the url) and
return the fetched payload.  The returned triple is
(result, whether the fetch collaborator was invoked, resulting tree). -/
def cache_get (h : Str → Nat) (fs : FS) (url : Str)
    (fetch : Str → Except Str Str) :
    PRes (Except Str Str × Bool × FS) :=
  match get_from_cache h fs url with
  | .panicked => .panicked
  | .ok r => .val (.ok r, false, fs)
  | .err =>
    match fetch url with
    | .error e => .val (.error e, true, fs)
    | .ok resp =>
      match put_in_cache h fs url url resp with
      | .panicked => .panicked
      | .val fs1 => .val (.ok resp, true, fs1)

/-! ## The index (`CacheIndex`, cache.rs:47-115)

A `chrono::NaiveDateTime` is modelled by its calendar fields plus the
sub-second nanoseconds; `TIME_FORMAT = "%Y-%m-%d %H:%M:%S"` renders and
parses the fields at second granularity.  The model covers the four-digit
year range `0..=9999` (chrono widens `%Y` beyond it with a sign). -/

/-- A `chrono::NaiveDateTime` value: calendar fields plus nanoseconds. -/
structure Time where
  year : Nat
  month : Nat
  day : Nat
  hour : Nat
  minute : Nat
  second : Nat
  nano : Nat
  deriving DecidableEq

/-- Gregorian leap year. -/
def isLeap (y : Nat) : Bool := y % 4 = 0 && (y % 100 ≠ 0 || y % 400 = 0)

/-- Days in a month of the proleptic Gregorian calendar. -/
def daysInMonth (y m : Nat) : Nat :=
  if m = 2 then (if isLeap y then 29 else 28)
  else if m = 4 ∨ m = 6 ∨ m = 9 ∨ m = 11 then 30
  else 31

/-- A representable `NaiveDateTime` within the model's four-digit-year
range: in-range calendar fields, no leap second. -/
def Time.valid (t : Time) : Prop :=
  t.year ≤ 9999 ∧ 1 ≤ t.month ∧ t.month ≤ 12 ∧ 1 ≤ t.day ∧
  t.day ≤ daysInMonth t.year t.month ∧ t.hour ≤ 23 ∧ t.minute ≤ 59 ∧
  t.second ≤ 59 ∧ t.nano < 1000000000

instance (t : Time) : Decidable t.valid := by
  unfold Time.valid; infer_instance

/-- Truncation to second granularity (what formatting and re-parsing with
`TIME_FORMAT` preserves). -/
def truncSec (t : Time) : Time := { t with nano := 0 }

/-- Render `n` in decimal, zero-padded on the left to at least `w` digits
(chrono's padded numeric format items). -/
def pad (w n : Nat) : Str :=
  (List.replicate (w - (natDigits n).length) 0 ++ natDigits n).map digitChar

/-- `time.format(TIME_FORMAT).to_string()` with
`TIME_FORMAT = "%Y-%m-%d %H:%M:%S"` (cache.rs:59, cache.rs:99). -/
def fmtTime (t : Time) : Str :=
  pad 4 t.year ++ ('-' :: pad 2 t.month) ++ ('-' :: pad 2 t.day) ++
  (' ' :: pad 2 t.hour) ++ (':' :: pad 2 t.minute) ++ (':' :: pad 2 t.second)

/-- Consume exactly `k` decimal digits, returning their value (on top of the
accumulator) and the remaining input. -/
def takeDigits : Nat → Nat → Str → Option (Nat × Str)
  | 0, acc, s => some (acc, s)
  | _ + 1, _, [] => none
  | k + 1, acc, c :: s =>
    match digitVal c with
    | none => none
    | some d => takeDigits k (10 * acc + d) s

/-- Consume one expected literal character. -/
def expectChar (c : Char) : Str → Option Str
  | [] => none
  | x :: s => if x = c then some s else none

/-- `NaiveDateTime::parse_from_str(s, TIME_FORMAT)` on the model's range:
four year digits, the literal separators, two digits per remaining field,
nothing left over, and the fields must form a real calendar date-time. -/
def parseTime (s : Str) : Option Time := do
  let (y, s) ← takeDigits 4 0 s
  let s ← expectChar '-' s
  let (mo, s) ← takeDigits 2 0 s
  let s ← expectChar '-' s
  let (d, s) ← takeDigits 2 0 s
  let s ← expectChar ' ' s
  let (hh, s) ← takeDigits 2 0 s
  let s ← expectChar ':' s
  let (mi, s) ← takeDigits 2 0 s
  let s ← expectChar ':' s
  let (ss, s) ← takeDigits 2 0 s
  if s = [] ∧ 1 ≤ mo ∧ mo ≤ 12 ∧ 1 ≤ d ∧ d ≤ daysInMonth y mo ∧
      hh ≤ 23 ∧ mi ≤ 59 ∧ ss ≤ 59 then
    some { year := y, month := mo, day := d, hour := hh, minute := mi,
           second := ss, nano := 0 }
  else
    none

/-- `ENTRY_SPLITTER` (cache.rs:58). -/
def ENTRY_SPLITTER : Str := ['%', '%', '%']

/-- The in-memory index: `HashMap<String, NaiveDateTime>` as an association
list (iteration order abstracted as list order). -/
abbrev IndexEntries := List (Str × Time)

/-- `HashMap::insert`: overwrite the value of an existing key, else add a
new binding. -/
def ainsert (m : IndexEntries) (k : Str) (v : Time) : IndexEntries :=
  match m with
  | [] => [(k, v)]
  | (k', v') :: rest =>
    if k' = k then (k', v) :: rest else (k', v') :: ainsert rest k v

/-- Rust `str::split_once(sep)`: split at the first occurrence of `sep`,
returning the parts before and after it (used with the nonempty
`ENTRY_SPLITTER`). -/
def splitOnce (sep : Str) : Str → Option (Str × Str)
  | [] => none
  | c :: rest =>
    if sep.isPrefixOf (c :: rest) then some ([], (c :: rest).drop sep.length)
    else
      match splitOnce sep rest with
      | none => none
      | some (b, a) => some (c :: b, a)

/-- Split a string at every newline character (Rust `str::lines` before the
trailing-line and `\r` adjustments); never returns an empty list. -/
def splitNl : Str → List Str
  | [] => [[]]
  | c :: rest =>
    if c = '\n' then [] :: splitNl rest
    else
      match splitNl rest with
      | [] => [[c]]
      | l :: ls => (c :: l) :: ls

/-- Strip one trailing carriage return (Rust `str::lines` tolerates
`\r\n`). -/
def stripCr (l : Str) : Str :=
  if l.getLast? = some '\r' then l.dropLast else l

/-- Rust `str::lines`: split on `'\n'`, drop a final empty segment (a
trailing newline ends the last line rather than starting a new one), and
strip one `'\r'` from the end of each line. -/
def rustLines (s : Str) : List Str :=
  let parts := splitNl s
  let parts := if parts.getLast? = some [] then parts.dropLast else parts
  parts.map stripCr

/-- One iteration of the load loop of `CacheIndex::new` (cache.rs:71-84):
`split_once(ENTRY_SPLITTER)`, parse the trimmed right part as a timestamp,
and on success insert the trimmed left part; any failure skips the line. -/
def parseIndexLine (entries : IndexEntries) (line : Str) : IndexEntries :=
  match splitOnce ENTRY_SPLITTER line with
  | none => entries
  | some (before, after) =>
    match parseTime (rustTrim after) with
    | none => entries
    | some t => ainsert entries (rustTrim before) t

/-- The parsing phase of `CacheIndex::new` over the file's content. -/
def loadIndex (content : Str) : IndexEntries :=
  (rustLines content).foldl parseIndexLine []

/-- `CacheIndex::new` (cache.rs:63-94) acting on the backing file, which is
modelled as `Option Str` (its content, or `none` when absent).  The file is
opened with `create(true).write(true).read(true)`: a missing file is
*created empty at load time*; an existing file is read without truncation.
Returns the loaded entries and the file state after the call. -/
def CacheIndex.new (file : Option Str) : IndexEntries × Option Str :=
  match file with
  | none => ([], some [])
  | some content => (loadIndex content, some content)

/-- One line of `CacheIndex::update_file`'s output:
`name + ENTRY_SPLITTER + time.format(TIME_FORMAT)` (cache.rs:99). -/
def indexLine (k : Str) (t : Time) : Str := k ++ ENTRY_SPLITTER ++ fmtTime t

/-- The full content written by `CacheIndex::update_file` (cache.rs:96-102):
a fold prepending `"\n"` before every record line, starting from the empty
string. -/
def update_file_content (entries : IndexEntries) : Str :=
  entries.foldl (fun s p => s ++ ('\n' :: indexLine p.1 p.2)) []

/-- `CacheIndex::clear_cache` (cache.rs:105-110):
`remove_file(filename).map(|_| entries.clear())` — the in-memory map is
cleared only when the deletion succeeds; deleting a missing file fails, and
`Result::map` then leaves the entries untouched.  Returns (success flag,
file state, entries). -/
def clear_cache (file : Option Str) (entries : IndexEntries) :
    Bool × Option Str × IndexEntries :=
  match file with
  | none => (false, none, entries)
  | some _ => (true, none, [])

/-! ## A small-step model of `put_in_cache` for concurrent interleavings

`put_in_cache` is a scan-then-write sequence over the shared tree with no
lock.  Each step below is one contiguous block of filesystem operations of
cache.rs:228-281; interleaving whole blocks of two callers is a legal
schedule of the real code. -/

/-- The local state of one in-flight `put_in_cache(url, meta, data)` call:
a program counter plus the locals captured so far. -/
structure PutProc where
  url : Str
  meta : Str
  data : Str
  pc : Nat
  chain : List Nat
  found : Option Nat
  slot : Nat
  deriving DecidableEq

/-- Apply `f` to the named bucket if it exists; operations addressed inside
a missing bucket directory fail and the code ignores those failures. -/
def updBucket (fs : FS) (name : Str) (f : Bucket → Bucket) : FS :=
  match alookup fs name with
  | none => fs
  | some b => aset fs name (f b)

/-- One atomic step of an in-flight `put_in_cache`.  pc 0: list the root and
create the bucket directory if absent (cache.rs:231-238); pc 1: list and
parse the chain (cache.rs:240-243, pc 98 is the `.unwrap()` panic); pc 2:
scan for the url (cache.rs:246); pc 3: compute the target slot and create
its directory (cache.rs:249-256); pc 4: write the `data` file; pc 5: write
the `key` file; pc 6: done. -/
def stepPut (h : Str → Nat) (fs : FS) (p : PutProc) : FS × PutProc :=
  let hash_name := natToStr (h p.url)
  match p.pc with
  | 0 =>
    (match alookup fs hash_name with
     | some _ => fs
     | none => fs ++ [(hash_name, [])],
     { p with pc := 1 })
  | 1 =>
    (fs,
     match alookup fs hash_name with
     | none => { p with pc := 99 }
     | some bucket =>
       match traverseOpt parseUsize (bucket.map Prod.fst) with
       | none => { p with pc := 98 }
       | some chain => { p with chain := chain, pc := 2 })
  | 2 =>
    (fs,
     match check_subdirs_for_url fs p.url hash_name with
     | .panicked => { p with pc := 98 }
     | .val f => { p with found := f, pc := 3 })
  | 3 =>
    let n := (p.found.or (p.chain.max?.map (· + 1))).getD 0
    (updBucket fs hash_name (fun b => createDirIfAbsent b (natToStr n)),
     { p with slot := n, pc := 4 })
  | 4 =>
    (updBucket fs hash_name (fun b => writeData b (natToStr p.slot) p.data),
     { p with pc := 5 })
  | 5 =>
    (updBucket fs hash_name (fun b => writeKey b (natToStr p.slot) p.meta),
     { p with pc := 6 })
  | _ => (fs, p)

/-- Run two in-flight puts under a schedule: `true` steps the first caller,
`false` the second. -/
def runPuts (h : Str → Nat) : FS → PutProc → PutProc → List Bool →
    FS × PutProc × PutProc
  | fs, p1, p2, [] => (fs, p1, p2)
  | fs, p1, p2, true :: rest =>
    let s := stepPut h fs p1
    runPuts h s.1 s.2 p2 rest
  | fs, p1, p2, false :: rest =>
    let s := stepPut h fs p2
    runPuts h s.1 p1 s.2 rest

/-- A fresh `put_in_cache(url, meta, data)` call about to start. -/
def mkPut (url meta data : Str) : PutProc :=
  { url := url, meta := meta, data := data, pc := 0, chain := [],
    found := none, slot := 0 }

/-- How many slots of `key`'s bucket hold exactly `key` as their key
record. -/
def countSlotsFor (fs : FS) (bname key : Str) : Nat :=
  match alookup fs bname with
  | none => 0
  | some b => (b.filter (fun p => p.2.key = some key)).length

/-- How many slots of a bucket have a key record whose trimmed content
equals `url` — the code's own notion of a slot "for" a key. -/
def matchCount (b : Bucket) (url : Str) : Nat :=
  (b.filter (fun p => slotMatches p.2 url)).length

/-- Every slot-directory name of the bucket is the canonical decimal
rendering of a number below `bound` (well-formed buckets, as produced by
`put_in_cache` itself). -/
def slotNamesCanonical (b : Bucket) (bound : Nat) : Prop :=
  ∀ p ∈ b, ∃ n, n < bound ∧ p.1 = natToStr n

/-- Modelled from the spec (§4.4 step 3) for the refinement part of C2: the
slot number a fresh insertion should use, `max(existing slot numbers) + 1`,
or `0` when the bucket is empty. -/
def specFreshSlot (b : Bucket) : Nat :=
  match ((traverseOpt parseUsize (b.map Prod.fst)).getD []).max? with
  | some m => m + 1
  | none => 0

/-- A concrete hash function for witnesses and counterexamples (the claims
hold for an arbitrary deterministic hash, which is a parameter of the
model). -/
def h0 : Str → Nat := fun _ => 0

instance {ε α : Type} [DecidableEq ε] [DecidableEq α] :
    DecidableEq (Except ε α)
  | .ok a, .ok b =>
    if h' : a = b then .isTrue (by rw [h'])
    else .isFalse (fun hh => h' (Except.ok.inj hh))
  | .error a, .error b =>
    if h' : a = b then .isTrue (by rw [h'])
    else .isFalse (fun hh => h' (Except.error.inj hh))
  | .ok _, .error _ => .isFalse (fun hh => Except.noConfusion hh)
  | .error _, .ok _ => .isFalse (fun hh => Except.noConfusion hh)

end RustCache

namespace RustCache

/-! ## Lemma library: decimal digits and their rendering/parsing -/

theorem toDigitsCore_lt_ten : ∀ f n, ∀ d ∈ toDigitsCore f n, d < 10 := by
  intro f
  induction f with
  | zero => intro n d hd; simp [toDigitsCore] at hd
  | succ f ih =>
    intro n d hd
    cases n with
    | zero => simp [toDigitsCore] at hd
    | succ m =>
      simp only [toDigitsCore, List.mem_cons] at hd
      rcases hd with h | h
      · subst h; omega
      · exact ih _ _ h

theorem toDigitsCore_foldr : ∀ f n, n ≤ f →
    (toDigitsCore f n).foldr (fun d a => 10 * a + d) 0 = n := by
  intro f
  induction f with
  | zero => intro n hn; interval_cases n; simp [toDigitsCore]
  | succ f ih =>
    intro n hn
    cases n with
    | zero => simp [toDigitsCore]
    | succ m =>
      have hdiv : (m + 1) / 10 ≤ f := by
        have := Nat.div_lt_self (Nat.succ_pos m) (by omega : 1 < 10)
        omega
      simp only [toDigitsCore, List.foldr_cons, ih _ hdiv]
      omega

theorem toDigitsCore_length : ∀ f n k, n ≤ f → n < 10 ^ k →
    (toDigitsCore f n).length ≤ k := by
  intro f
  induction f with
  | zero => intro n k hn _; interval_cases n; simp [toDigitsCore]
  | succ f ih =>
    intro n k hn hk
    cases n with
    | zero => simp [toDigitsCore]
    | succ m =>
      cases k with
      | zero => simp at hk
      | succ k =>
        have hdiv : (m + 1) / 10 ≤ f := by
          have := Nat.div_lt_self (Nat.succ_pos m) (by omega : 1 < 10)
          omega
        have hdivk : (m + 1) / 10 < 10 ^ k := by
          have h10 : (0:Nat) < 10 := by omega
          rw [Nat.div_lt_iff_lt_mul h10]
          calc m + 1 < 10 ^ (k + 1) := hk
            _ = 10 ^ k * 10 := by ring
        simpa [toDigitsCore, Nat.succ_le_succ_iff] using ih _ k hdiv hdivk

theorem natDigits_lt_ten (n : Nat) : ∀ d ∈ natDigits n, d < 10 := by
  intro d hd
  unfold natDigits at hd
  split at hd
  · simp at hd; omega
  · rw [List.mem_reverse] at hd
    exact toDigitsCore_lt_ten _ _ _ hd

theorem natDigits_val (n : Nat) :
    (natDigits n).foldl (fun a d => 10 * a + d) 0 = n := by
  unfold natDigits
  split
  · simp; omega
  · rw [List.foldl_reverse]
    exact toDigitsCore_foldr n n (le_refl n)

theorem natDigits_ne_nil (n : Nat) : natDigits n ≠ [] := by
  unfold natDigits
  split
  · simp
  · intro h
    rw [List.reverse_eq_nil_iff] at h
    rename_i hn
    cases n with
    | zero => exact hn rfl
    | succ m => simp [toDigitsRev, toDigitsCore] at h

theorem natDigits_length (n k : Nat) (hk : 1 ≤ k) (h : n < 10 ^ k) :
    (natDigits n).length ≤ k := by
  unfold natDigits
  split
  · simpa using hk
  · rw [List.length_reverse]
    exact toDigitsCore_length n n k (le_refl n) h

theorem digitChar_toNat (d : Nat) (hd : d < 10) :
    (digitChar d).toNat = 48 + d := by
  interval_cases d <;> decide

theorem digitVal_digitChar (d : Nat) (hd : d < 10) :
    digitVal (digitChar d) = some d := by
  interval_cases d <;> decide

theorem digitChar_ne_plus (d : Nat) (hd : d < 10) : digitChar d ≠ '+' := by
  interval_cases d <;> decide

theorem digitChar_not_ws (d : Nat) (hd : d < 10) :
    rustIsWhitespace (digitChar d) = false := by
  interval_cases d <;> decide

theorem digitChar_ne_nl (d : Nat) (hd : d < 10) : digitChar d ≠ '\n' := by
  interval_cases d <;> decide

theorem digitChar_ne_cr (d : Nat) (hd : d < 10) : digitChar d ≠ '\r' := by
  interval_cases d <;> decide

theorem parseDigitsAcc_digits (ds : List Nat) :
    ∀ acc, (∀ d ∈ ds, d < 10) →
    parseDigitsAcc acc (ds.map digitChar) =
      some (ds.foldl (fun a d => 10 * a + d) acc) := by
  induction ds with
  | nil => intro acc _; rfl
  | cons d ds ih =>
    intro acc hds
    have hd : d < 10 := hds d (List.mem_cons_self d ds)
    simp only [List.map_cons, parseDigitsAcc, digitVal_digitChar d hd,
      List.foldl_cons]
    exact ih _ (fun x hx => hds x (List.mem_cons_of_mem d hx))

theorem parseUsize_natToStr (n : Nat) (h : n < 2 ^ 64) :
    parseUsize (natToStr n) = some n := by
  have hlt := natDigits_lt_ten n
  obtain ⟨d, ds, hds⟩ : ∃ d ds, natDigits n = d :: ds := by
    cases hnd : natDigits n with
    | nil => exact absurd hnd (natDigits_ne_nil n)
    | cons d ds => exact ⟨d, ds, rfl⟩
  have hd10 : d < 10 := hlt d (by rw [hds]; exact List.mem_cons_self d ds)
  have hparse : parseDigitsAcc 0 ((d :: ds).map digitChar) = some n := by
    rw [parseDigitsAcc_digits (d :: ds) 0 (by rw [← hds]; exact hlt),
      ← hds, natDigits_val]
  have hrepr : natToStr n = digitChar d :: ds.map digitChar := by
    unfold natToStr; rw [hds, List.map_cons]
  rw [hrepr]
  simp only [parseUsize]
  rw [if_neg (digitChar_ne_plus d hd10), ← List.map_cons, hparse]
  show (if n < 2 ^ 64 then some n else none) = some n
  rw [if_pos h]

theorem map_digitChar_inj : ∀ (A B : List Nat), (∀ d ∈ A, d < 10) →
    (∀ d ∈ B, d < 10) → A.map digitChar = B.map digitChar → A = B := by
  intro A
  induction A with
  | nil =>
    intro B _ _ hm
    cases B with
    | nil => rfl
    | cons b bs => simp at hm
  | cons a as ih =>
    intro B hA hB hm
    cases B with
    | nil => simp at hm
    | cons b bs =>
      simp only [List.map_cons, List.cons.injEq] at hm
      have ha : a < 10 := hA a (List.mem_cons_self a as)
      have hb : b < 10 := hB b (List.mem_cons_self b bs)
      have hab : a = b := by
        have := congrArg Char.toNat hm.1
        rw [digitChar_toNat a ha, digitChar_toNat b hb] at this
        omega
      rw [hab, ih bs (fun d hd => hA d (List.mem_cons_of_mem a hd))
        (fun d hd => hB d (List.mem_cons_of_mem b hd)) hm.2]

theorem natToStr_inj : ∀ {m n : Nat}, natToStr m = natToStr n → m = n := by
  intro m n h
  have hdig : natDigits m = natDigits n :=
    map_digitChar_inj _ _ (natDigits_lt_ten m) (natDigits_lt_ten n) h
  calc m = (natDigits m).foldl (fun a d => 10 * a + d) 0 :=
        (natDigits_val m).symm
    _ = (natDigits n).foldl (fun a d => 10 * a + d) 0 := by rw [hdig]
    _ = n := natDigits_val n

/-! ## Lemma library: association lists (directories) -/

theorem alookup_eq_none {α : Type} (l : List (Str × α)) (k : Str) :
    alookup l k = none ↔ k ∉ l.map Prod.fst := by
  induction l with
  | nil => simp [alookup]
  | cons p rest ih =>
    obtain ⟨k', v⟩ := p
    simp only [alookup, List.map_cons, List.mem_cons]
    by_cases hk : k' = k
    · rw [if_pos hk]
      constructor
      · intro h; exact Option.noConfusion h
      · intro h; exact absurd (Or.inl hk.symm) h
    · have hk' : k ≠ k' := fun he => hk he.symm
      rw [if_neg hk, ih]
      constructor
      · intro h hc
        rcases hc with hc | hc
        · exact hk' hc
        · exact h hc
      · intro h hc
        exact h (Or.inr hc)

theorem alookup_mem {α : Type} (l : List (Str × α)) (k : Str) (v : α)
    (h : alookup l k = some v) : (k, v) ∈ l := by
  induction l with
  | nil => simp [alookup] at h
  | cons p rest ih =>
    obtain ⟨k', v'⟩ := p
    rw [alookup] at h
    by_cases hk : k' = k
    · rw [if_pos hk] at h
      have hv : v' = v := Option.some.inj h
      rw [← hk, ← hv]
      exact List.mem_cons_self _ _
    · rw [if_neg hk] at h
      exact List.mem_cons_of_mem _ (ih h)

theorem mem_alookup {α : Type} (l : List (Str × α)) (k : Str) (v : α)
    (hnd : (l.map Prod.fst).Nodup) (h : (k, v) ∈ l) :
    alookup l k = some v := by
  induction l with
  | nil => simp at h
  | cons p rest ih =>
    obtain ⟨k', v'⟩ := p
    simp only [List.map_cons, List.nodup_cons] at hnd
    rcases List.mem_cons.mp h with h1 | h1
    · have hk : k = k' := congrArg Prod.fst h1
      have hv : v = v' := congrArg Prod.snd h1
      subst hk; subst hv
      simp [alookup]
    · have hk : k' ≠ k := by
        intro he; subst he
        exact hnd.1 (List.mem_map_of_mem Prod.fst h1)
      simp only [alookup, if_neg hk]
      exact ih hnd.2 h1

theorem alookup_isSome_of_mem {α : Type} (l : List (Str × α)) (k : Str)
    (h : k ∈ l.map Prod.fst) : ∃ v, alookup l k = some v := by
  cases hv : alookup l k with
  | none => exact absurd h ((alookup_eq_none l k).mp hv)
  | some v => exact ⟨v, rfl⟩

theorem alookup_append_right {α : Type} (l₁ l₂ : List (Str × α)) (k : Str)
    (h : alookup l₁ k = none) :
    alookup (l₁ ++ l₂) k = alookup l₂ k := by
  induction l₁ with
  | nil => rfl
  | cons p rest ih =>
    obtain ⟨k', v'⟩ := p
    by_cases hk : k' = k
    · simp [alookup, hk] at h
    · simp only [alookup, if_neg hk] at h ⊢
      exact ih h

theorem aset_map_fst {α : Type} (l : List (Str × α)) (k : Str) (v : α) :
    (aset l k v).map Prod.fst = l.map Prod.fst := by
  induction l with
  | nil => rfl
  | cons p rest ih =>
    obtain ⟨k', v'⟩ := p
    by_cases hk : k' = k
    · simp [aset, hk]
    · simp [aset, hk, ih]

theorem alookup_aset_self {α : Type} (l : List (Str × α)) (k : Str)
    (v : α) (h : k ∈ l.map Prod.fst) :
    alookup (aset l k v) k = some v := by
  induction l with
  | nil => simp at h
  | cons p rest ih =>
    obtain ⟨k', v'⟩ := p
    by_cases hk : k' = k
    · simp [aset, hk, alookup]
    · simp only [List.map_cons, List.mem_cons] at h
      rcases h with h1 | h1

      · exact absurd h1.symm hk
      · simp only [aset, if_neg hk, alookup, if_neg hk]
        exact ih h1

theorem alookup_aset_ne {α : Type} (l : List (Str × α)) (k k' : Str)
    (v : α) (h : k' ≠ k) :
    alookup (aset l k v) k' = alookup l k' := by
  induction l with
  | nil => rfl
  | cons p rest ih =>
    obtain ⟨k₀, v₀⟩ := p
    by_cases hk : k₀ = k
    · have hne : k₀ ≠ k' := by rw [hk]; exact fun he => h he.symm
      rw [show aset ((k₀, v₀) :: rest) k v = (k₀, v) :: rest by
        simp [aset, hk]]
      simp only [alookup]
      rw [if_neg hne, if_neg hne]
    · rw [show aset ((k₀, v₀) :: rest) k v = (k₀, v₀) :: aset rest k v by
        simp [aset, hk]]
      simp only [alookup]
      by_cases hk' : k₀ = k'
      · rw [if_pos hk', if_pos hk']
      · rw [if_neg hk', if_neg hk', ih]

theorem mem_aset {α : Type} (l : List (Str × α)) (k : Str) (v : α)
    (hnd : (l.map Prod.fst).Nodup) (hk : k ∈ l.map Prod.fst) :
    ∀ p, p ∈ aset l k v ↔ (p = (k, v) ∨ (p ∈ l ∧ p.1 ≠ k)) := by
  induction l with
  | nil => simp at hk
  | cons q rest ih =>
    obtain ⟨k₀, v₀⟩ := q
    simp only [List.map_cons, List.nodup_cons] at hnd
    intro p
    by_cases hke : k₀ = k
    · subst hke
      rw [show aset ((k₀, v₀) :: rest) k₀ v = (k₀, v) :: rest by
        simp [aset]]
      simp only [List.mem_cons]
      constructor
      · intro hp
        rcases hp with hp | hp
        · exact Or.inl hp
        · refine Or.inr ⟨Or.inr hp, ?_⟩
          intro he
          exact hnd.1 (he ▸ List.mem_map_of_mem Prod.fst hp)
      · intro hp
        rcases hp with hp | ⟨hp | hp, hne⟩
        · exact Or.inl hp
        · exact absurd (congrArg Prod.fst hp) hne
        · exact Or.inr hp
    · have hk' : k ∈ rest.map Prod.fst := by
        simp only [List.map_cons, List.mem_cons] at hk
        rcases hk with h1 | h1
        · exact absurd h1.symm hke
        · exact h1
      rw [show aset ((k₀, v₀) :: rest) k v = (k₀, v₀) :: aset rest k v by
        simp [aset, hke]]
      simp only [List.mem_cons]
      rw [ih hnd.2 hk' p]
      constructor
      · intro hp
        rcases hp with hp | hp | ⟨hp, hne⟩
        · refine Or.inr ⟨Or.inl hp, ?_⟩
          intro he
          rw [congrArg Prod.fst hp] at he
          exact hke he
        · exact Or.inl hp
        · exact Or.inr ⟨Or.inr hp, hne⟩
      · intro hp
        rcases hp with hp | ⟨hp | hp, hne⟩
        · exact Or.inr (Or.inl hp)
        · exact Or.inl hp
        · exact Or.inr (Or.inr ⟨hp, hne⟩)

/-! ## Lemma library: parsing the chain listing -/

theorem traverseOpt_none_of_mem {α β : Type} (f : α → Option β)
    (l : List α) (x : α) (hx : x ∈ l) (hf : f x = none) :
    traverseOpt f l = none := by
  induction l with
  | nil => simp at hx
  | cons a rest ih =>
    rcases List.mem_cons.mp hx with rfl | hx'
    · simp [traverseOpt, hf]
    · simp only [traverseOpt, ih hx']
      cases f a <;> rfl

theorem traverseOpt_parse_canonical (b : Bucket)
    (hc : slotNamesCanonical b (2 ^ 64)) :
    ∃ chain, traverseOpt parseUsize (b.map Prod.fst) = some chain ∧
      b.map Prod.fst = chain.map natToStr := by
  induction b with
  | nil => exact ⟨[], rfl, rfl⟩
  | cons p rest ih =>
    obtain ⟨n, hn, hname⟩ := hc p (List.mem_cons_self p rest)
    obtain ⟨chain, hch, hmap⟩ :=
      ih (fun q hq => hc q (List.mem_cons_of_mem p hq))
    refine ⟨n :: chain, ?_, ?_⟩
    · simp only [List.map_cons, traverseOpt, hname,
        parseUsize_natToStr n hn, hch]
    · simp only [List.map_cons, hname, hmap]

/-! ## Lemma library: the chain scan -/

theorem scanChain_eq_none (b : Bucket) (url : Str)
    (hnone : ∀ p ∈ b, slotMatches p.2 url = false) :
    ∀ chain, scanChain b url chain = none := by
  intro chain
  induction chain with
  | nil => rfl
  | cons n rest ih =>
    rw [scanChain]
    split
    · exact ih
    · rename_i slot hl
      split
      · exact ih
      · rename_i content hkey
        split
        · rename_i htrim
          have hmem := alookup_mem b (natToStr n) slot hl
          have hfalse := hnone _ hmem
          simp [slotMatches, hkey, htrim] at hfalse
        · exact ih

theorem scanChain_eq_some (b : Bucket) (url : Str) (iT : Nat)
    (slotT : Slot) (hnd : (b.map Prod.fst).Nodup)
    (hmemT : (natToStr iT, slotT) ∈ b)
    (hmatchT : slotMatches slotT url = true)
    (huniq : ∀ p ∈ b, slotMatches p.2 url = true → p = (natToStr iT, slotT)) :
    ∀ chain, natToStr iT ∈ chain.map natToStr →
      scanChain b url chain = some iT := by
  intro chain hchain
  have hiT : iT ∈ chain := by
    obtain ⟨j, hj, hje⟩ := List.mem_map.mp hchain
    exact natToStr_inj hje ▸ hj
  clear hchain
  induction chain with
  | nil => simp at hiT
  | cons n rest ih =>
    rw [scanChain]
    by_cases hn : n = iT
    · subst hn
      rw [mem_alookup b _ _ hnd hmemT]
      simp only [slotMatches] at hmatchT
      cases hkey : slotT.key with
      | none => rw [hkey] at hmatchT; simp at hmatchT
      | some content =>
        rw [hkey] at hmatchT
        simp only [decide_eq_true_eq] at hmatchT
        simp only [hkey]
        rw [if_pos hmatchT]
    · have hiT' : iT ∈ rest := by
        rcases List.mem_cons.mp hiT with h1 | h1
        · exact absurd h1.symm hn
        · exact h1
      split
      · exact ih hiT'
      · rename_i slot hl
        split
        · exact ih hiT'
        · rename_i content hkey
          split
          · rename_i htrim
            have hmem := alookup_mem b (natToStr n) slot hl
            have heq := huniq _ hmem (by simp [slotMatches, hkey, htrim])
            have : natToStr n = natToStr iT := congrArg Prod.fst heq
            exact absurd (natToStr_inj this) hn
          · exact ih hiT'

/-! ## Lemma library: facts about the insertion path -/

theorem max?_nat_spec (l : List Nat) (m : Nat) (h : l.max? = some m) :
    m ∈ l ∧ ∀ x ∈ l, x ≤ m := by
  rw [List.max?_eq_some_iff] at h
  · exact h
  · exact fun a => le_refl a
  · exact fun a b => max_choice a b
  · exact fun a b c => max_le_iff

theorem matchCount_zero (b : Bucket) (url : Str) :
    matchCount b url = 0 ↔ ∀ p ∈ b, slotMatches p.2 url = false := by
  unfold matchCount
  rw [List.length_eq_zero, List.filter_eq_nil_iff]
  constructor
  · intro hall p hp
    have := hall p hp
    simpa using this
  · intro hall p hp
    simp [hall p hp]

theorem matchCount_one (b : Bucket) (url : Str)
    (h : matchCount b url = 1) :
    ∃ q, q ∈ b ∧ slotMatches q.2 url = true ∧
      ∀ p ∈ b, slotMatches p.2 url = true → p = q := by
  unfold matchCount at h
  obtain ⟨q, hq⟩ := List.length_eq_one.mp h
  have hqmem : q ∈ b.filter (fun p => slotMatches p.2 url) := by
    rw [hq]; exact List.mem_cons_self q []
  rw [List.mem_filter] at hqmem
  refine ⟨q, hqmem.1, hqmem.2, ?_⟩
  intro p hp hpm
  have : p ∈ b.filter (fun p => slotMatches p.2 url) :=
    List.mem_filter.mpr ⟨hp, hpm⟩
  rw [hq] at this
  simpa using this

theorem aset_append_right {α : Type} (l₁ l₂ : List (Str × α)) (k : Str)
    (v : α) (h : alookup l₁ k = none) :
    aset (l₁ ++ l₂) k v = l₁ ++ aset l₂ k v := by
  induction l₁ with
  | nil => rfl
  | cons p rest ih =>
    obtain ⟨k₀, v₀⟩ := p
    rw [alookup] at h
    by_cases hk : k₀ = k
    · rw [if_pos hk] at h; exact Option.noConfusion h
    · rw [if_neg hk] at h
      simp only [List.cons_append, aset, if_neg hk, List.append_eq, ih h]

/-- The collected outcome of `put_in_cache` on a state whose target bucket
directory does not exist yet: the bucket is created and the entry lands in
a fresh slot `0`. -/
theorem put_in_cache_fresh_bucket (h : Str → Nat) (fs : FS)
    (url data : Str) (hb : alookup fs (natToStr (h url)) = none) :
    put_in_cache h fs url url data =
      .val (aset (fs ++ [(natToStr (h url), [])]) (natToStr (h url))
        [(natToStr 0, { key := some url, data := some data })]) := by
  have hlook : alookup (fs ++ [(natToStr (h url), [])]) (natToStr (h url)) =
      some [] := by
    rw [alookup_append_right _ _ _ hb]
    simp [alookup]
  unfold put_in_cache
  simp only [hb, hlook]
  rw [check_subdirs_for_url]
  simp only [hlook]
  simp only [traverseOpt, List.map_nil, scanChain]
  simp [createDirIfAbsent, writeData, writeKey, alookup, aset]

/-- The collected outcome of `put_in_cache` on a state whose target bucket
exists and is well formed (canonical, duplicate-free slot names with
numeric headroom) with at most one slot matching the key: the put succeeds
and rewrites the bucket so that a single well-identified slot holds exactly
(key, payload); moreover the slot targeted is the matching slot when one
exists (no duplicate created, other slots untouched) and the fresh slot
`max+1` / `0` otherwise. -/
theorem put_in_cache_existing_bucket (h : Str → Nat) (fs : FS)
    (url data : Str) (b : Bucket)
    (hb : alookup fs (natToStr (h url)) = some b)
    (hcanon : slotNamesCanonical b (2 ^ 64))
    (hnd : (b.map Prod.fst).Nodup)
    (hm : matchCount b url ≤ 1)
    (hheadroom : matchCount b url = 0 → specFreshSlot b < 2 ^ 64) :
    ∃ b' iT, iT < 2 ^ 64 ∧
      put_in_cache h fs url url data =
        .val (aset fs (natToStr (h url)) b') ∧
      (natToStr iT, ({ key := some url, data := some data } : Slot)) ∈ b' ∧
      (b'.map Prod.fst).Nodup ∧
      slotNamesCanonical b' (2 ^ 64) ∧
      (∀ p ∈ b', slotMatches p.2 url = true →
        p = (natToStr iT, { key := some url, data := some data })) ∧
      ((∃ slotT, (natToStr iT, slotT) ∈ b ∧ slotMatches slotT url = true ∧
          b'.map Prod.fst = b.map Prod.fst ∧
          (∀ nm, nm ≠ natToStr iT → alookup b' nm = alookup b nm)) ∨
       (matchCount b url = 0 ∧ iT = specFreshSlot b ∧
          b' = b ++ [(natToStr iT,
            { key := some url, data := some data })])) := by
  have hcanon' : slotNamesCanonical b (2 ^ 64) := hcanon
  obtain ⟨chain, hchT, hchmap⟩ := traverseOpt_parse_canonical b hcanon'
  rcases Nat.le_one_iff_eq_zero_or_eq_one.mp hm with hmc | hmc
  · -- no existing slot matches: a fresh slot is appended
    have hnone := (matchCount_zero b url).mp hmc
    have hscan := scanChain_eq_none b url hnone chain
    -- the fresh slot number and its bound
    set nF := ((chain.max?.map (· + 1)).getD 0 : Nat) with hnF
    have hfresh : nF = specFreshSlot b := by
      unfold specFreshSlot
      rw [hchT, Option.getD_some, hnF]
      cases hmx : chain.max? with
      | none => simp
      | some m => simp
    have hnFlt : nF < 2 ^ 64 := by
      rw [hfresh]
      exact hheadroom hmc
    have hnotin : natToStr nF ∉ b.map Prod.fst := by
      intro hin
      rw [hchmap] at hin
      obtain ⟨j, hj, hje⟩ := List.mem_map.mp hin
      have hj' : j = nF := natToStr_inj hje
      subst hj'
      cases hmx : chain.max? with
      | none =>
        rw [List.max?_eq_none_iff] at hmx
        rw [hmx] at hj
        simp at hj
      | some m =>
        obtain ⟨_, hle⟩ := max?_nat_spec chain m hmx
        have hle' := hle _ hj
        have hval : nF = m + 1 := by rw [hnF, hmx]; rfl
        omega
    have hlookF : alookup b (natToStr nF) = none :=
      (alookup_eq_none b (natToStr nF)).mpr hnotin
    have hcreate : createDirIfAbsent b (natToStr nF) =
        b ++ [(natToStr nF, { key := none, data := none })] := by
      unfold createDirIfAbsent
      rw [hlookF]
    have hwd : writeData (b ++ [(natToStr nF, { key := none, data := none })])
        (natToStr nF) data =
        b ++ [(natToStr nF, { key := none, data := some data })] := by
      unfold writeData
      rw [alookup_append_right _ _ _ hlookF]
      simp only [alookup, if_true, eq_self_iff_true]
      rw [aset_append_right _ _ _ _ hlookF]
      simp only [aset, if_true, eq_self_iff_true]
    have hwk : writeKey (b ++ [(natToStr nF, { key := none, data := some data })])
        (natToStr nF) url =
        b ++ [(natToStr nF, { key := some url, data := some data })] := by
      unfold writeKey
      rw [alookup_append_right _ _ _ hlookF]
      simp only [alookup, if_true, eq_self_iff_true]
      rw [aset_append_right _ _ _ _ hlookF]
      simp only [aset, if_true, eq_self_iff_true]
    refine ⟨b ++ [(natToStr nF, { key := some url, data := some data })],
      nF, hnFlt, ?_, ?_, ?_, ?_, ?_, Or.inr ⟨hmc, hfresh, rfl⟩⟩
    · unfold put_in_cache
      simp only [hb, hchT]
      rw [check_subdirs_for_url]
      simp only [hb, hchT, hscan]
      rw [Option.none_or, ← hnF, hcreate, hwd, hwk]
    · exact List.mem_append_right _ (List.mem_cons_self _ _)
    · rw [List.map_append]
      simp only [List.map_cons, List.map_nil]
      rw [List.nodup_append]
      refine ⟨hnd, List.nodup_singleton _, ?_⟩
      intro x hx1 hx2
      simp only [List.mem_singleton] at hx2
      subst hx2
      exact hnotin hx1
    · intro p hp
      rcases List.mem_append.mp hp with hp | hp
      · exact hcanon' p hp
      · simp only [List.mem_singleton] at hp
        exact ⟨nF, hnFlt, congrArg Prod.fst hp⟩
    · intro p hp hpm
      rcases List.mem_append.mp hp with hp | hp
      · rw [hnone p hp] at hpm; exact Bool.noConfusion hpm
      · simpa using hp
  · -- exactly one slot matches: that slot is overwritten in place
    obtain ⟨q, hqmem, hqmatch, hquniq⟩ := matchCount_one b url hmc
    obtain ⟨iT, hiTlt, hiTname⟩ := hcanon q hqmem
    obtain ⟨nm₀, slot₀⟩ := q
    simp only at hiTname
    subst hiTname
    have hscan := scanChain_eq_some b url iT slot₀ hnd hqmem hqmatch hquniq
      chain (by rw [← hchmap]; exact List.mem_map_of_mem Prod.fst hqmem)
    have hiTin : natToStr iT ∈ b.map Prod.fst :=
      List.mem_map_of_mem Prod.fst hqmem
    have hlookT : alookup b (natToStr iT) = some slot₀ :=
      mem_alookup b _ _ hnd hqmem
    have hcreate : createDirIfAbsent b (natToStr iT) = b := by
      unfold createDirIfAbsent
      rw [hlookT]
    set b₂ := aset b (natToStr iT) { slot₀ with data := some data } with hb₂
    have hwd : writeData b (natToStr iT) data = b₂ := by
      unfold writeData
      rw [hlookT]
    have hin₂ : natToStr iT ∈ b₂.map Prod.fst := by
      rw [hb₂, aset_map_fst]; exact hiTin
    have hlook₂ : alookup b₂ (natToStr iT) =
        some { slot₀ with data := some data } := by
      rw [hb₂]
      exact alookup_aset_self b _ _ hiTin
    set b' := aset b₂ (natToStr iT)
      { key := some url, data := some data } with hb'
    have hwk : writeKey b₂ (natToStr iT) url = b' := by
      unfold writeKey
      rw [hlook₂]
    have hmap' : b'.map Prod.fst = b.map Prod.fst := by
      rw [hb', hb₂, aset_map_fst, aset_map_fst]
    have hnd₂ : (b₂.map Prod.fst).Nodup := by
      rw [hb₂, aset_map_fst]; exact hnd
    have hlook' : alookup b' (natToStr iT) =
        some { key := some url, data := some data } := by
      rw [hb']
      exact alookup_aset_self b₂ _ _ hin₂
    refine ⟨b', iT, by omega, ?_, alookup_mem _ _ _ hlook', ?_,
      ?_, ?_, Or.inl ⟨slot₀, hqmem, hqmatch, hmap', ?_⟩⟩
    · unfold put_in_cache
      simp only [hb, hchT]
      rw [check_subdirs_for_url]
      simp only [hb, hchT, hscan]
      simp only [Option.or, Option.getD_some]
      rw [hcreate, hwd, hwk]
    · rw [hmap']; exact hnd
    · intro p hp
      rw [List.mem_map] at hiTin
      have hpin : p.1 ∈ b'.map Prod.fst := List.mem_map_of_mem Prod.fst hp
      rw [hmap'] at hpin
      obtain ⟨p₀, hp₀, hp₀e⟩ := List.mem_map.mp hpin
      obtain ⟨j, hj, hje⟩ := hcanon p₀ hp₀
      exact ⟨j, by omega, hp₀e ▸ hje⟩
    · intro p hp hpm
      have := (mem_aset b₂ (natToStr iT) _ hnd₂ hin₂ p).mp (hb' ▸ hp)
      rcases this with hpe | ⟨hp₂, hpne⟩
      · exact hpe
      · have := (mem_aset b (natToStr iT) _ hnd hiTin p).mp (hb₂ ▸ hp₂)
        rcases this with hpe | ⟨hpb, _⟩
        · exact absurd (congrArg Prod.fst hpe) hpne
        · have := hquniq p hpb hpm
          exact absurd (congrArg Prod.fst this) hpne
    · intro nm hnm
      rw [hb', hb₂, alookup_aset_ne _ _ _ _ hnm, alookup_aset_ne _ _ _ _ hnm]

theorem alookup_some_mem_names {α : Type} (l : List (Str × α)) (k : Str)
    (v : α) (h : alookup l k = some v) : k ∈ l.map Prod.fst :=
  List.mem_map_of_mem Prod.fst (alookup_mem l k v h)

theorem specFreshSlot_lt (b : Bucket)
    (hcanon : slotNamesCanonical b (2 ^ 64 - 1)) :
    specFreshSlot b < 2 ^ 64 := by
  have hcanon' : slotNamesCanonical b (2 ^ 64) := by
    intro p hp
    obtain ⟨n, hn, he⟩ := hcanon p hp
    exact ⟨n, by omega, he⟩
  obtain ⟨chain, hchT, hchmap⟩ := traverseOpt_parse_canonical b hcanon'
  unfold specFreshSlot
  rw [hchT, Option.getD_some]
  cases hmx : chain.max? with
  | none => exact Nat.two_pow_pos 64
  | some m =>
    obtain ⟨hmem, _⟩ := max?_nat_spec chain m hmx
    have : natToStr m ∈ b.map Prod.fst := by
      rw [hchmap]; exact List.mem_map_of_mem natToStr hmem
    obtain ⟨p, hp, hpe⟩ := List.mem_map.mp this
    obtain ⟨j, hj, hje⟩ := hcanon p hp
    have hmj : m = j := natToStr_inj (hje ▸ hpe).symm
    show m + 1 < 2 ^ 64
    omega

theorem filter_eq_singleton_of_uniq {α : Type} (l : List α) (q : α → Bool)
    (a : α) (hnd : l.Nodup) (ha : a ∈ l) (hqa : q a = true)
    (huniq : ∀ x ∈ l, q x = true → x = a) : l.filter q = [a] := by
  induction l with
  | nil => simp at ha
  | cons x rest ih =>
    rw [List.nodup_cons] at hnd
    rcases List.mem_cons.mp ha with rfl | ha'
    · rw [List.filter_cons_of_pos hqa]
      have hrest : rest.filter q = [] := by
        rw [List.filter_eq_nil_iff]
        intro y hy hqy
        have := huniq y (List.mem_cons_of_mem _ hy) hqy
        subst this
        exact hnd.1 hy
      rw [hrest]
    · have hqx : q x = false := by
        cases hqx : q x with
        | false => rfl
        | true =>
          have := huniq x (List.mem_cons_self _ _) hqx
          subst this
          exact absurd ha' hnd.1
      rw [List.filter_cons_of_neg (by rw [hqx]; exact Bool.false_ne_true)]
      exact ih hnd.2 ha'
        (fun y hy hqy => huniq y (List.mem_cons_of_mem _ hy) hqy)

/-- A well-formed bucket lookup hit: when the target bucket exists with
canonical duplicate-free slot names and exactly one slot (trim-)matches the
requested url, `get_from_cache` returns that slot's full `data` record. -/
theorem get_from_cache_hit (h : Str → Nat) (fs : FS) (url : Str)
    (b : Bucket) (iT : Nat) (slotT : Slot) (payload : Str)
    (hb : alookup fs (natToStr (h url)) = some b)
    (hcanon : slotNamesCanonical b (2 ^ 64))
    (hnd : (b.map Prod.fst).Nodup)
    (hmemT : (natToStr iT, slotT) ∈ b)
    (hmatchT : slotMatches slotT url = true)
    (huniq : ∀ p ∈ b, slotMatches p.2 url = true → p = (natToStr iT, slotT))
    (hdata : slotT.data = some payload) :
    get_from_cache h fs url = .ok payload := by
  obtain ⟨chain, hchT, hchmap⟩ := traverseOpt_parse_canonical b hcanon
  have hscan := scanChain_eq_some b url iT slotT hnd hmemT hmatchT huniq chain
    (by rw [← hchmap]; exact List.mem_map_of_mem Prod.fst hmemT)
  unfold get_from_cache
  simp only [hb]
  rw [check_subdirs_for_url]
  simp only [hb, hchT, hscan]
  rw [mem_alookup b _ _ hnd hmemT]
  show (match slotT.data with
    | none => CacheGetRes.err
    | some d => CacheGetRes.ok d) = CacheGetRes.ok payload
  rw [hdata]

/-- The state reached by a successful `put_in_cache(url, url, data)` from a
well-formed state, packaged for reuse: the target bucket again satisfies
the well-formedness invariants and contains exactly one slot matching
`url`, which holds exactly the (url, data) records. -/
theorem put_in_cache_wf (h : Str → Nat) (fs : FS) (url data : Str)
    (htrim : rustTrim url = url)
    (hbucket : ∀ b, alookup fs (natToStr (h url)) = some b →
      slotNamesCanonical b (2 ^ 64) ∧ (b.map Prod.fst).Nodup ∧
      matchCount b url ≤ 1 ∧
      (matchCount b url = 0 → specFreshSlot b < 2 ^ 64)) :
    ∃ fs' b', put_in_cache h fs url url data = .val fs' ∧
      alookup fs' (natToStr (h url)) = some b' ∧
      slotNamesCanonical b' (2 ^ 64) ∧ (b'.map Prod.fst).Nodup ∧
      ∃ iT, iT < 2 ^ 64 ∧
        (natToStr iT, ({ key := some url, data := some data } : Slot)) ∈ b' ∧
        (∀ p ∈ b', slotMatches p.2 url = true →
          p = (natToStr iT, { key := some url, data := some data })) ∧
        matchCount b' url = 1 := by
  have hmatch_target : slotMatches { key := some url, data := some data } url
      = true := by
    simp [slotMatches, htrim]
  cases hal : alookup fs (natToStr (h url)) with
  | none =>
    have hput := put_in_cache_fresh_bucket h fs url data hal
    set B : Bucket := [(natToStr 0, { key := some url, data := some data })]
      with hB
    have hlook : alookup (fs ++ [(natToStr (h url), [])]) (natToStr (h url)) =
        some [] := by
      rw [alookup_append_right _ _ _ hal]
      simp [alookup]
    have hmem : natToStr (h url) ∈
        (fs ++ [(natToStr (h url), [])]).map Prod.fst :=
      alookup_some_mem_names _ _ _ hlook
    have hlook' : alookup (aset (fs ++ [(natToStr (h url), [])])
        (natToStr (h url)) B) (natToStr (h url)) = some B :=
      alookup_aset_self _ _ _ hmem
    refine ⟨_, B, hput, hlook', ?_, ?_, 0, Nat.two_pow_pos 64, ?_, ?_, ?_⟩
    · intro p hp
      rw [hB, List.mem_singleton] at hp
      exact ⟨0, Nat.two_pow_pos 64, congrArg Prod.fst hp⟩
    · rw [hB]; simp
    · rw [hB]; exact List.mem_cons_self _ _
    · intro p hp _
      rw [hB, List.mem_singleton] at hp
      exact hp
    · rw [hB]
      simp [matchCount, hmatch_target]
  | some b =>
    obtain ⟨hcanon, hnd, hm, hhead⟩ := hbucket b hal
    obtain ⟨b', iT, hiTlt, hput, hmemT, hnd', hcanon', huniq, _⟩ :=
      put_in_cache_existing_bucket h fs url data b hal hcanon hnd hm hhead
    have hmem : natToStr (h url) ∈ fs.map Prod.fst :=
      alookup_some_mem_names _ _ _ hal
    have hlook' : alookup (aset fs (natToStr (h url)) b')
        (natToStr (h url)) = some b' :=
      alookup_aset_self _ _ _ hmem
    refine ⟨_, b', hput, hlook', hcanon', hnd', iT, hiTlt, hmemT, huniq, ?_⟩
    unfold matchCount
    rw [filter_eq_singleton_of_uniq b'
      (fun p => slotMatches p.2 url) _ (List.Nodup.of_map _ hnd') hmemT
      hmatch_target huniq]
    rfl

/-! ## Claim C4: invariant violation during lookup -/

/-- C4, evaluation at the failing input: with the bucket directory for key
`"k"` present but containing a single slot whose key record is `"x"` (so no
slot matches `"k"`), `get_from_cache` hits the `panic!` at cache.rs:194 —
and the panic propagates out of `Cache::get` — instead of returning the
distinct typed error the claim requires. -/
theorem C4_lookup_panics_on_invariant_violation :
    get_from_cache h0
      [(natToStr 0, [(natToStr 0, { key := some ['x'], data := some ['d'] })])]
      ['k'] = CacheGetRes.panicked ∧
    cache_get h0
      [(natToStr 0, [(natToStr 0, { key := some ['x'], data := some ['d'] })])]
      ['k'] (fun _ => Except.error ['e']) = PRes.panicked := by
  constructor <;> rfl

/-! ## Claim C8: index load on a missing backing file -/

/-- C8, counterexample: loading the index from a path with no backing file
does not leave the filesystem unchanged — `CacheIndex::new` opens the file
with `create(true)` (cache.rs:64-67), so the backing file exists (empty)
immediately after the load, not lazily on the first persist. -/
theorem C8_counterexample : (CacheIndex.new none).2 ≠ none := by
  decide

/-- C8, amended: loading the index from a path where no backing file exists
yields an empty index, but the backing file is created (empty) eagerly at
load time by the `create(true)` open options, not lazily on the first
persist call. -/
theorem C8_missing_file_empty_index :
    CacheIndex.new none = ([], some []) := rfl

/-! ## Claim C9: concurrent puts of the same new key -/

/-- C9, evaluation at the failing schedule: two concurrent
`put_in_cache("k", ...)` calls on an initially empty tree, interleaved so
that the second caller lists the chain after the first created slot
directory `0` but scans for the key before the first wrote its key record,
produce TWO persisted slots whose key record is `"k"` — the scan-then-write
sequence has no lock.  Run sequentially, the same two calls produce exactly
one slot. -/
theorem C9_concurrent_put_race :
    countSlotsFor
      (runPuts h0 [] (mkPut ['k'] ['k'] ['d']) (mkPut ['k'] ['k'] ['e'])
        [true, true, true, true, false, false, false,
         true, true, false, false, false]).1
      (natToStr 0) ['k'] = 2 ∧
    countSlotsFor
      (runPuts h0 [] (mkPut ['k'] ['k'] ['d']) (mkPut ['k'] ['k'] ['e'])
        [true, true, true, true, true, true,
         false, false, false, false, false, false]).1
      (natToStr 0) ['k'] = 1 := by
  constructor <;> rfl

/-! ## Claim C10: failed purge leaves the index untouched -/

/-- C10: `CacheIndex::clear_cache` applies `Result::map` to the result of
`remove_file`, so the in-memory entries are cleared only when the deletion
succeeds; when the backing file is absent the deletion fails and the
entries (and filesystem) are left exactly as they were. -/
theorem C10_clear_cache_frame :
    ∀ (entries : IndexEntries) (c : Str),
      clear_cache none entries = (false, none, entries) ∧
      clear_cache (some c) entries = (true, none, []) := by
  intro entries c
  exact ⟨rfl, rfl⟩

/-! ## Claim C1: put / get round trip -/

/-- C1, counterexample: the round trip fails for a key that is not fixed by
trimming.  For the key `" k"` (leading space), `put_in_cache` stores the
exact key record `" k"`, but the lookup compares `record.trim() == url`
(cache.rs:214), so no slot matches and the subsequent `get` hits the
`panic!` at cache.rs:194 instead of returning the stored payload. -/
theorem C1_counterexample :
    put_in_cache h0 [] [' ', 'k'] [' ', 'k'] ['d'] =
      PRes.val [(natToStr 0,
        [(natToStr 0, { key := some [' ', 'k'], data := some ['d'] })])] ∧
    get_from_cache h0
      [(natToStr 0,
        [(natToStr 0, { key := some [' ', 'k'], data := some ['d'] })])]
      [' ', 'k'] = CacheGetRes.panicked := by
  constructor <;> rfl

/-! ## Claim C2: overwrite semantics of put -/

/-- C2, counterexample: for the trim-unstable key `" k"`, the second put
does not find the slot written by the first (the scan compares trimmed
records), so it appends a second slot: two slots of the bucket end up
holding the key `" k"`, not exactly one. -/
theorem C2_counterexample :
    (match put_in_cache h0 [] [' ', 'k'] [' ', 'k'] ['a'] with
     | .panicked => 0
     | .val st1 =>
       match put_in_cache h0 st1 [' ', 'k'] [' ', 'k'] ['b'] with
       | .panicked => 0
       | .val st2 => countSlotsFor st2 (natToStr 0) [' ', 'k']) = 2 := by
  rfl

/-! ## Claim C3: error reporting of get -/

/-- C3, counterexample: a storage failure during the cache lookup is NOT
surfaced to the caller as a local error.  In a state where the bucket and a
matching slot for `"k"` exist but the slot's `data` file cannot be opened,
`get_from_cache` fails — and `Cache::get` (cache.rs:157) treats that
failure as a miss: it invokes the fetch collaborator and returns the
fetched payload with no error at all. -/
theorem C3_counterexample :
    get_from_cache h0
      [(natToStr 0, [(natToStr 0, { key := some ['k'], data := none })])]
      ['k'] = CacheGetRes.err ∧
    cache_get h0
      [(natToStr 0, [(natToStr 0, { key := some ['k'], data := none })])]
      ['k'] (fun _ => Except.ok ['f']) =
      PRes.val (Except.ok ['f'], true,
        [(natToStr 0,
          [(natToStr 0, { key := some ['k'], data := some ['f'] })])]) := by
  constructor <;> rfl

/-! ## Lemma library: string structure for the index round trip -/

theorem mem_of_getLast?_eq {α : Type} (l : List α) (a : α)
    (h : l.getLast? = some a) : a ∈ l := by
  induction l with
  | nil => simp at h
  | cons x xs ih =>
    cases xs with
    | nil =>
      simp only [List.getLast?_singleton, Option.some.injEq] at h
      rw [← h]
      exact List.mem_cons_self _ _
    | cons y ys =>
      rw [List.getLast?_cons_cons] at h
      exact List.mem_cons_of_mem _ (ih h)

theorem getLast?_cons_ne_nil {α : Type} (c : α) (l : List α) (h : l ≠ []) :
    (c :: l).getLast? = l.getLast? := by
  cases l with
  | nil => exact absurd rfl h
  | cons y ys => exact List.getLast?_cons_cons

theorem pad_ne_nil (w n : Nat) : pad w n ≠ [] := by
  unfold pad
  intro hp
  rw [List.map_eq_nil_iff, List.append_eq_nil] at hp
  exact natDigits_ne_nil n hp.2

theorem pad_mem_digit (w n : Nat) :
    ∀ c ∈ pad w n, ∃ d, d < 10 ∧ c = digitChar d := by
  intro c hc
  unfold pad at hc
  obtain ⟨d, hd, he⟩ := List.mem_map.mp hc
  rcases List.mem_append.mp hd with hd | hd
  · exact ⟨d, by rw [List.eq_of_mem_replicate hd]; omega, he.symm⟩
  · exact ⟨d, natDigits_lt_ten n d hd, he.symm⟩

theorem pad_head_digit (w n : Nat) :
    ∃ d, d < 10 ∧ (pad w n).head? = some (digitChar d) := by
  cases hp : pad w n with
  | nil => exact absurd hp (pad_ne_nil w n)
  | cons c rest =>
    have hc : c ∈ pad w n := by rw [hp]; exact List.mem_cons_self _ _
    obtain ⟨d, hd, he⟩ := pad_mem_digit w n c hc
    exact ⟨d, hd, by rw [List.head?_cons, he]⟩

theorem pad_getLast_digit (w n : Nat) :
    ∃ d, d < 10 ∧ (pad w n).getLast? = some (digitChar d) := by
  cases hl : (pad w n).getLast? with
  | none =>
    have h1 := (List.getLast?_isSome (l := pad w n)).mpr (pad_ne_nil w n)
    rw [hl] at h1
    exact absurd h1 (by simp)
  | some c =>
    have hc : c ∈ pad w n := mem_of_getLast?_eq _ _ hl
    obtain ⟨d, hd, he⟩ := pad_mem_digit w n c hc
    exact ⟨d, hd, congrArg some he⟩

theorem fmtTime_eq_assoc (t : Time) :
    fmtTime t = pad 4 t.year ++ ('-' :: (pad 2 t.month ++ ('-' ::
      (pad 2 t.day ++ (' ' :: (pad 2 t.hour ++ (':' ::
        (pad 2 t.minute ++ (':' :: pad 2 t.second))))))))) := by
  simp [fmtTime, List.append_assoc]

theorem fmtTime_ne_nil (t : Time) : fmtTime t ≠ [] := by
  rw [fmtTime_eq_assoc]
  intro hp
  rw [List.append_eq_nil] at hp
  exact pad_ne_nil 4 t.year hp.1

theorem fmtTime_head_digit (t : Time) :
    ∃ d, d < 10 ∧ (fmtTime t).head? = some (digitChar d) := by
  rw [fmtTime_eq_assoc]
  rw [List.head?_append_of_ne_nil _ (pad_ne_nil 4 t.year)]
  exact pad_head_digit 4 t.year

theorem fmtTime_getLast_digit (t : Time) :
    ∃ d, d < 10 ∧ (fmtTime t).getLast? = some (digitChar d) := by
  unfold fmtTime
  rw [List.getLast?_append_of_ne_nil _ (by simp)]
  rw [getLast?_cons_ne_nil _ _ (pad_ne_nil 2 t.second)]
  exact pad_getLast_digit 2 t.second

theorem fmtTime_no_nl (t : Time) : '\n' ∉ fmtTime t := by
  rw [fmtTime_eq_assoc]
  intro hmem
  simp only [List.mem_append, List.mem_cons] at hmem
  rcases hmem with h | h | h | h | h | h | h | h | h | h | h
  all_goals first
  | (obtain ⟨d, hd, he⟩ := pad_mem_digit _ _ _ h
     exact digitChar_ne_nl d hd he.symm)
  | exact absurd h (by decide)

theorem dropWhile_eq_self_of_head {p : Char → Bool} (l : Str)
    (h : ∀ c, l.head? = some c → p c = false) : l.dropWhile p = l := by
  cases l with
  | nil => rfl
  | cons c rest =>
    rw [List.dropWhile_cons, h c rfl]
    simp

theorem rustTrim_eq_self (s : Str)
    (hh : ∀ c, s.head? = some c → rustIsWhitespace c = false)
    (hl : ∀ c, s.getLast? = some c → rustIsWhitespace c = false) :
    rustTrim s = s := by
  unfold rustTrim
  rw [dropWhile_eq_self_of_head s hh]
  rw [dropWhile_eq_self_of_head s.reverse (by
    intro c hc
    rw [List.head?_reverse] at hc
    exact hl c hc)]
  exact List.reverse_reverse s

theorem rustTrim_fmtTime (t : Time) : rustTrim (fmtTime t) = fmtTime t := by
  apply rustTrim_eq_self
  · intro c hc
    obtain ⟨d, hd, he⟩ := fmtTime_head_digit t
    rw [he] at hc
    rw [← Option.some.inj hc]
    exact digitChar_not_ws d hd
  · intro c hc
    obtain ⟨d, hd, he⟩ := fmtTime_getLast_digit t
    rw [he] at hc
    rw [← Option.some.inj hc]
    exact digitChar_not_ws d hd

theorem isPrefixOf_append_self (l r : Str) : l.isPrefixOf (l ++ r) = true := by
  rw [List.isPrefixOf_iff_prefix]
  exact List.prefix_append l r

theorem isPrefixOf_append_false (p a r : Str) (hlen : p.length ≤ a.length)
    (h : p.isPrefixOf a = false) : p.isPrefixOf (a ++ r) = false := by
  cases hq : p.isPrefixOf (a ++ r) with
  | false => rfl
  | true =>
    rw [List.isPrefixOf_iff_prefix] at hq
    have htake := List.prefix_iff_eq_take.mp hq
    rw [List.take_append_eq_append_take] at htake
    have h0 : p.length - a.length = 0 := by omega
    rw [h0, List.take_zero, List.append_nil] at htake
    have hpre : p <+: a := List.prefix_iff_eq_take.mpr htake
    rw [← List.isPrefixOf_iff_prefix] at hpre
    rw [hpre] at h
    exact Bool.noConfusion h

theorem splitOnce_append_sep (sep k : Str) (r : Str)
    (h : splitOnce sep (k ++ sep) = some (k, [])) :
    splitOnce sep (k ++ sep ++ r) = some (k, r) := by
  induction k with
  | nil =>
    rw [List.nil_append] at h ⊢
    cases hsep : sep with
    | nil =>
      rw [hsep] at h
      exact absurd h (by simp [splitOnce])
    | cons c s' =>
      subst hsep
      show splitOnce (c :: s') (c :: (s' ++ r)) = some ([], r)
      rw [splitOnce]
      rw [show (c :: s').isPrefixOf (c :: (s' ++ r)) = true from
        isPrefixOf_append_self (c :: s') r]
      rw [if_pos rfl]
      rw [show (c :: (s' ++ r)) = (c :: s') ++ r from rfl, List.drop_left]
  | cons c k' ih =>
    rw [List.cons_append] at h
    rw [splitOnce] at h
    by_cases hp : sep.isPrefixOf (c :: (k' ++ sep)) = true
    · rw [if_pos hp] at h
      have hcontra : ([] : Str) = c :: k' :=
        congrArg Prod.fst (Option.some.inj h)
      exact List.noConfusion hcontra
    · have hp' : sep.isPrefixOf (c :: (k' ++ sep)) = false :=
        Bool.eq_false_iff.mpr hp
      rw [if_neg hp] at h
      cases hs : splitOnce sep (k' ++ sep) with
      | none => rw [hs] at h; exact Option.noConfusion h
      | some ba =>
        obtain ⟨b, a⟩ := ba
        rw [hs] at h
        have hb' : b = k' := by
          have hfst := congrArg Prod.fst (Option.some.inj h)
          injection hfst
        have ha : a = [] := congrArg Prod.snd (Option.some.inj h)
        rw [hb', ha] at hs
        have hrec := ih hs
        show splitOnce sep (((c :: k') ++ sep) ++ r) = some (c :: k', r)
        rw [show ((c :: k') ++ sep) ++ r = c :: ((k' ++ sep) ++ r) from rfl]
        rw [splitOnce]
        have hlen : sep.length ≤ (c :: (k' ++ sep)).length := by
          simp only [List.length_cons, List.length_append]
          omega
        have hp'' : sep.isPrefixOf ((c :: (k' ++ sep)) ++ r) = false :=
          isPrefixOf_append_false sep (c :: (k' ++ sep)) r hlen hp'
        rw [if_neg (by
          rw [show (c :: ((k' ++ sep) ++ r)) = (c :: (k' ++ sep)) ++ r
            from rfl, hp'']
          simp)]
        rw [hrec]

theorem splitNl_ne_nil (s : Str) : splitNl s ≠ [] := by
  induction s with
  | nil => simp [splitNl]
  | cons c rest ih =>
    rw [splitNl]
    by_cases hc : c = '\n'
    · simp [hc]
    · rw [if_neg hc]
      cases hs : splitNl rest with
      | nil => simp
      | cons l ls => simp

theorem splitNl_append_no_nl (l : Str) (hnl : '\n' ∉ l) :
    ∀ s hd tl, splitNl s = hd :: tl →
      splitNl (l ++ s) = (l ++ hd) :: tl := by
  induction l with
  | nil =>
    intro s hd tl hs
    simpa using hs
  | cons c l' ih =>
    intro s hd tl hs
    have hc : c ≠ '\n' := fun he => hnl (he ▸ List.mem_cons_self c l')
    have hrec := ih (fun hm => hnl (List.mem_cons_of_mem c hm)) s hd tl hs
    rw [List.cons_append, splitNl, if_neg hc, hrec]
    rfl

theorem splitNl_flatten (ls : List Str) (h : ∀ l ∈ ls, '\n' ∉ l) :
    splitNl ((ls.map (fun l => '\n' :: l)).flatten) = [] :: ls := by
  induction ls with
  | nil => rfl
  | cons l ls ih =>
    rw [List.map_cons, List.flatten_cons, List.cons_append, splitNl,
      if_pos rfl]
    have ihr := ih (fun x hx => h x (List.mem_cons_of_mem _ hx))
    cases hs : splitNl ((ls.map (fun l => '\n' :: l)).flatten) with
    | nil => exact absurd hs (splitNl_ne_nil _)
    | cons hd tl =>
      rw [hs] at ihr
      have hhd : hd = [] := by injection ihr
      have htl : tl = ls := by injection ihr
      rw [splitNl_append_no_nl l (h l (List.mem_cons_self _ _)) _ hd tl hs,
        hhd, htl, List.append_nil]

/-! ## Lemma library: timestamp format round trip -/

theorem takeDigits_exact (ds : List Nat) (hds : ∀ d ∈ ds, d < 10) :
    ∀ acc r, takeDigits ds.length acc (ds.map digitChar ++ r) =
      some (ds.foldl (fun a d => 10 * a + d) acc, r) := by
  induction ds with
  | nil => intro acc r; rfl
  | cons d ds ih =>
    intro acc r
    have hd := hds d (List.mem_cons_self d ds)
    simp only [List.length_cons, List.map_cons, List.cons_append,
      takeDigits, digitVal_digitChar d hd, List.foldl_cons]
    exact ih (fun x hx => hds x (List.mem_cons_of_mem d hx)) _ r

theorem foldl_val_replicate (z : Nat) (ds : List Nat) :
    (List.replicate z 0 ++ ds).foldl (fun a d => 10 * a + d) 0 =
      ds.foldl (fun a d => 10 * a + d) 0 := by
  rw [List.foldl_append]
  congr 1
  induction z with
  | zero => rfl
  | succ z ih => simpa [List.replicate_succ, List.foldl_cons] using ih

theorem takeDigits_pad (w n : Nat) (hw : 1 ≤ w) (h : n < 10 ^ w) (r : Str) :
    takeDigits w 0 (pad w n ++ r) = some (n, r) := by
  have hlen : (List.replicate (w - (natDigits n).length) 0 ++
      natDigits n).length = w := by
    rw [List.length_append, List.length_replicate]
    have := natDigits_length n w hw h
    omega
  have hall : ∀ d ∈ List.replicate (w - (natDigits n).length) 0 ++
      natDigits n, d < 10 := by
    intro d hd
    rcases List.mem_append.mp hd with hd | hd
    · rw [List.eq_of_mem_replicate hd]; omega
    · exact natDigits_lt_ten n d hd
  have hex := takeDigits_exact _ hall 0 r
  rw [hlen] at hex
  show takeDigits w 0 ((List.replicate (w - (natDigits n).length) 0 ++
    natDigits n).map digitChar ++ r) = some (n, r)
  rw [hex, foldl_val_replicate, natDigits_val]

theorem parseTime_fmtTime (t : Time) (ht : t.valid) :
    parseTime (fmtTime t) = some (truncSec t) := by
  obtain ⟨h1, h2, h3, h4, h5, h6, h7, h8, _⟩ := ht
  have hten : (10:Nat) ^ 4 = 10000 := by norm_num
  have hten2 : (10:Nat) ^ 2 = 100 := by norm_num
  have hy : t.year < 10 ^ 4 := by omega
  have hmo : t.month < 10 ^ 2 := by omega
  have hd : t.day < 10 ^ 2 := by
    have hdm : daysInMonth t.year t.month ≤ 31 := by
      unfold daysInMonth
      split
      · split <;> omega
      · split <;> omega
    omega
  have hh : t.hour < 10 ^ 2 := by omega
  have hmi : t.minute < 10 ^ 2 := by omega
  have hs : t.second < 10 ^ 2 := by omega
  have expectChar_cons_self : ∀ (c : Char) (s : Str),
      expectChar c (c :: s) = some s := by
    intro c s; simp [expectChar]
  have takeDigits_pad_nil : ∀ w n, 1 ≤ w → n < 10 ^ w →
      takeDigits w 0 (pad w n) = some (n, []) := by
    intro w n hw hn
    have := takeDigits_pad w n hw hn []
    rwa [List.append_nil] at this
  unfold parseTime
  rw [fmtTime_eq_assoc]
  simp only [Option.bind_eq_bind, Option.some_bind, expectChar_cons_self,
    takeDigits_pad 4 t.year (by omega) hy,
    takeDigits_pad 2 t.month (by omega) hmo,
    takeDigits_pad 2 t.day (by omega) hd,
    takeDigits_pad 2 t.hour (by omega) hh,
    takeDigits_pad 2 t.minute (by omega) hmi,
    takeDigits_pad_nil 2 t.second (by omega) hs]
  rw [if_pos ⟨trivial, h2, h3, h4, h5, h6, h7, h8⟩]
  rfl

/-! ## Lemma library: the written index file and its lines -/

theorem update_file_content_eq (entries : IndexEntries) :
    update_file_content entries =
      (entries.map (fun p => '\n' :: indexLine p.1 p.2)).flatten := by
  suffices hgen : ∀ acc,
      entries.foldl (fun s p => s ++ ('\n' :: indexLine p.1 p.2)) acc =
        acc ++ (entries.map (fun p => '\n' :: indexLine p.1 p.2)).flatten by
    have := hgen []
    simpa [update_file_content] using this
  induction entries with
  | nil => intro acc; simp
  | cons p rest ih =>
    intro acc
    simp only [List.foldl_cons, List.map_cons, List.flatten_cons, ih,
      List.append_assoc]

theorem indexLine_ne_nil (k : Str) (t : Time) : indexLine k t ≠ [] := by
  unfold indexLine
  intro hp
  rw [List.append_eq_nil, List.append_eq_nil] at hp
  exact absurd hp.1.2 (by simp [ENTRY_SPLITTER])

theorem indexLine_no_nl (k : Str) (t : Time) (hk : '\n' ∉ k) :
    '\n' ∉ indexLine k t := by
  unfold indexLine
  intro hmem
  rcases List.mem_append.mp hmem with hm | hm
  · rcases List.mem_append.mp hm with hm | hm
    · exact hk hm
    · exact absurd hm (by simp [ENTRY_SPLITTER])
  · exact fmtTime_no_nl t hm

theorem indexLine_getLast_digit (k : Str) (t : Time) :
    ∃ d, d < 10 ∧ (indexLine k t).getLast? = some (digitChar d) := by
  unfold indexLine
  rw [List.getLast?_append_of_ne_nil _ (fmtTime_ne_nil t)]
  exact fmtTime_getLast_digit t

theorem rustLines_update_file (entries : IndexEntries)
    (hne : entries ≠ [])
    (hnl : ∀ p ∈ entries, '\n' ∉ p.1) :
    rustLines (update_file_content entries) =
      [] :: entries.map (fun p => indexLine p.1 p.2) := by
  have hlines_nl : ∀ l ∈ entries.map (fun p => indexLine p.1 p.2),
      '\n' ∉ l := by
    intro l hl
    obtain ⟨p, hp, hpe⟩ := List.mem_map.mp hl
    rw [← hpe]
    exact indexLine_no_nl p.1 p.2 (hnl p hp)
  have hsplit : splitNl (update_file_content entries) =
      [] :: entries.map (fun p => indexLine p.1 p.2) := by
    rw [update_file_content_eq]
    rw [show entries.map (fun p => '\n' :: indexLine p.1 p.2) =
      (entries.map (fun p => indexLine p.1 p.2)).map (fun l => '\n' :: l) by
      rw [List.map_map]; rfl]
    exact splitNl_flatten _ hlines_nl
  have hlast : ((([] : Str)) :: entries.map
      (fun p => indexLine p.1 p.2)).getLast? ≠ some [] := by
    cases hml : entries.map (fun p => indexLine p.1 p.2) with
    | nil => exact absurd (List.map_eq_nil_iff.mp hml) hne
    | cons l ls =>
      rw [getLast?_cons_ne_nil _ _ (by simp)]
      intro hlast
      have hmem : ([] : Str) ∈ l :: ls := by
        exact mem_of_getLast?_eq _ _ hlast
      rw [← hml] at hmem
      obtain ⟨p, hp, hpe⟩ := List.mem_map.mp hmem
      exact indexLine_ne_nil p.1 p.2 hpe
  have hstrip : ∀ l ∈ ([] : Str) :: entries.map
      (fun p => indexLine p.1 p.2), stripCr l = l := by
    intro l hl
    rcases List.mem_cons.mp hl with rfl | hl
    · rfl
    · obtain ⟨p, hp, hpe⟩ := List.mem_map.mp hl
      unfold stripCr
      rw [if_neg]
      rw [← hpe]
      obtain ⟨d, hd, he⟩ := indexLine_getLast_digit p.1 p.2
      rw [he]
      intro hcr
      exact digitChar_ne_cr d hd (Option.some.inj hcr)
  simp only [rustLines, hsplit]
  rw [if_neg hlast]
  exact (List.map_congr_left hstrip).trans (List.map_id _)

/-! ## Lemma library: loading the written lines -/

theorem parseIndexLine_indexLine (acc : IndexEntries) (k : Str) (t : Time)
    (hk : rustTrim k = k)
    (hclean : splitOnce ENTRY_SPLITTER (k ++ ENTRY_SPLITTER) = some (k, []))
    (ht : t.valid) :
    parseIndexLine acc (indexLine k t) = ainsert acc k (truncSec t) := by
  have hsplit : splitOnce ENTRY_SPLITTER (indexLine k t) =
      some (k, fmtTime t) :=
    splitOnce_append_sep ENTRY_SPLITTER k (fmtTime t) hclean
  simp only [parseIndexLine, hsplit, rustTrim_fmtTime t,
    parseTime_fmtTime t ht, hk]

theorem ainsert_not_mem (m : IndexEntries) (k : Str) (v : Time)
    (h : k ∉ m.map Prod.fst) : ainsert m k v = m ++ [(k, v)] := by
  induction m with
  | nil => rfl
  | cons p rest ih =>
    obtain ⟨k', v'⟩ := p
    simp only [List.map_cons, List.mem_cons] at h
    push_neg at h
    have hne : k' ≠ k := fun he => h.1 he.symm
    simp only [ainsert, if_neg hne]
    rw [ih h.2, List.cons_append]

theorem foldl_parse_lines (entries : IndexEntries)
    (hk : ∀ p ∈ entries, rustTrim p.1 = p.1 ∧
      splitOnce ENTRY_SPLITTER (p.1 ++ ENTRY_SPLITTER) = some (p.1, []))
    (ht : ∀ p ∈ entries, Time.valid p.2) :
    ∀ acc, (entries.map (fun p => indexLine p.1 p.2)).foldl
        parseIndexLine acc =
      entries.foldl (fun acc p => ainsert acc p.1 (truncSec p.2)) acc := by
  induction entries with
  | nil => intro acc; rfl
  | cons p rest ih =>
    intro acc
    obtain ⟨hk1, hk2⟩ := hk p (List.mem_cons_self p rest)
    simp only [List.map_cons, List.foldl_cons]
    rw [parseIndexLine_indexLine acc p.1 p.2 hk1 hk2
      (ht p (List.mem_cons_self p rest))]
    exact ih (fun q hq => hk q (List.mem_cons_of_mem p hq))
      (fun q hq => ht q (List.mem_cons_of_mem p hq)) _

theorem foldl_ainsert_append (entries : IndexEntries) :
    ∀ acc, (entries.map Prod.fst).Nodup →
      (∀ x ∈ entries.map Prod.fst, x ∉ acc.map Prod.fst) →
      entries.foldl (fun acc p => ainsert acc p.1 (truncSec p.2)) acc =
        acc ++ entries.map (fun p => (p.1, truncSec p.2)) := by
  induction entries with
  | nil => intro acc _ _; simp
  | cons p rest ih =>
    intro acc hnd hdisj
    simp only [List.map_cons, List.nodup_cons] at hnd
    rw [List.foldl_cons,
      ainsert_not_mem acc p.1 _
        (hdisj p.1 (List.mem_map_of_mem Prod.fst (List.mem_cons_self p rest)))]
    rw [ih (acc ++ [(p.1, truncSec p.2)]) hnd.2 ?_]
    · simp [List.append_assoc]
    · intro x hx
      rw [List.map_append]
      intro hmem
      rcases List.mem_append.mp hmem with hm | hm
      · exact hdisj x (by
          simp only [List.map_cons, List.mem_cons]
          exact Or.inr hx) hm
      · simp only [List.map_cons, List.map_nil, List.mem_singleton] at hm
        rw [hm] at hx
        exact hnd.1 hx

/-! ## Claim C7: index persist / load round trip -/

/-- C7, counterexample: the index round trip loses a record whose key
contains the separator token.  Persisting the single record with key
`"a%%%b"` writes the line `a%%%b%%%2020-01-31 23:59:58`; on load,
`split_once("%%%")` cuts at the FIRST occurrence, the right part fails to
parse as a timestamp, and the line is dropped: the reloaded index is empty,
so the key set is not preserved. -/
theorem C7_counterexample :
    loadIndex (update_file_content
      [(['a', '%', '%', '%', 'b'],
        { year := 2020, month := 1, day := 31, hour := 23, minute := 59,
          second := 58, nano := 0 })]) = [] := by
  rfl

/-- C1 (amended): for every key that is fixed by trimming and every
payload, starting from a well-formed state (the key's bucket, if present,
has canonical duplicate-free numeric slot names with headroom and at most
one slot matching the key), `put_in_cache` succeeds, a subsequent
`get_from_cache` finds the entry by hashing the key and scanning the
bucket's chain and returns exactly the stored payload, and `Cache::get`
returns it without invoking the fetch collaborator. -/
theorem C1_put_get_roundtrip (h : Str → Nat) (fs : FS) (url data : Str)
    (htrim : rustTrim url = url)
    (hbucket : ∀ b, alookup fs (natToStr (h url)) = some b →
      slotNamesCanonical b (2 ^ 64 - 1) ∧ (b.map Prod.fst).Nodup ∧
      matchCount b url ≤ 1) :
    ∃ fs', put_in_cache h fs url url data = .val fs' ∧
      get_from_cache h fs' url = .ok data ∧
      ∀ fetch, cache_get h fs' url fetch =
        .val (.ok data, false, fs') := by
  have hbucket' : ∀ b, alookup fs (natToStr (h url)) = some b →
      slotNamesCanonical b (2 ^ 64) ∧ (b.map Prod.fst).Nodup ∧
      matchCount b url ≤ 1 ∧
      (matchCount b url = 0 → specFreshSlot b < 2 ^ 64) := by
    intro b hb
    obtain ⟨hc, hn, hm⟩ := hbucket b hb
    refine ⟨?_, hn, hm, fun _ => specFreshSlot_lt b hc⟩
    intro p hp
    obtain ⟨n, h1, h2⟩ := hc p hp
    exact ⟨n, by omega, h2⟩
  obtain ⟨fs', b', hput, hlook, hcanon', hnd', iT, _, hmemT, huniq, _⟩ :=
    put_in_cache_wf h fs url data htrim hbucket'
  have hget : get_from_cache h fs' url = .ok data :=
    get_from_cache_hit h fs' url b' iT
      { key := some url, data := some data } data hlook hcanon' hnd'
      hmemT (by simp [slotMatches, htrim]) huniq rfl
  refine ⟨fs', hput, hget, ?_⟩
  intro fetch
  unfold cache_get
  rw [hget]

/-- C1, witness: the round trip at the concrete key `"k"`, payload `"d"`,
empty initial tree, constant hash. -/
theorem C1_put_get_roundtrip_witness :
    ∃ fs', put_in_cache h0 [] ['k'] ['k'] ['d'] = .val fs' ∧
      get_from_cache h0 fs' ['k'] = .ok ['d'] ∧
      ∀ fetch, cache_get h0 fs' ['k'] fetch =
        .val (.ok ['d'], false, fs') :=
  C1_put_get_roundtrip h0 [] ['k'] ['d'] (by decide)
    (fun b hb => Option.noConfusion hb)

/-- C2 (amended): for keys fixed by trimming and well-formed states whose
stored key records are themselves fixed by trimming, (a) the slot targeted
by `put_in_cache` is the existing slot whose key record equals the key
exactly when one exists (overwritten in place, no duplicate, all other
slots untouched), otherwise the fresh slot `max(existing)+1`, or `0` for a
new empty bucket; and (b) two successive puts of the same key leave exactly
one slot of the bucket holding that key, and a subsequent get returns the
second payload. -/
theorem C2_put_target_slot (h : Str → Nat) (fs : FS) (url d1 d2 : Str)
    (htrim : rustTrim url = url)
    (hbucket : ∀ b, alookup fs (natToStr (h url)) = some b →
      slotNamesCanonical b (2 ^ 64 - 1) ∧ (b.map Prod.fst).Nodup ∧
      matchCount b url ≤ 1 ∧
      (∀ p ∈ b, ∀ r, p.2.key = some r → rustTrim r = r)) :
    ((∀ b, alookup fs (natToStr (h url)) = some b →
      ∃ b', put_in_cache h fs url url d1 =
          .val (aset fs (natToStr (h url)) b') ∧
        ((∃ i slot, alookup b (natToStr i) = some slot ∧
            slot.key = some url ∧
            b'.map Prod.fst = b.map Prod.fst ∧
            alookup b' (natToStr i) =
              some { key := some url, data := some d1 } ∧
            (∀ nm, nm ≠ natToStr i → alookup b' nm = alookup b nm)) ∨
         (matchCount b url = 0 ∧
            b' = b ++ [(natToStr (specFreshSlot b),
              { key := some url, data := some d1 })]))) ∧
     (alookup fs (natToStr (h url)) = none →
        put_in_cache h fs url url d1 =
          .val (aset (fs ++ [(natToStr (h url), [])]) (natToStr (h url))
            [(natToStr 0, { key := some url, data := some d1 })]))) ∧
    (∃ fs1 fs2, put_in_cache h fs url url d1 = .val fs1 ∧
      put_in_cache h fs1 url url d2 = .val fs2 ∧
      countSlotsFor fs2 (natToStr (h url)) url = 1 ∧
      get_from_cache h fs2 url = .ok d2) := by
  have hbucket' : ∀ b, alookup fs (natToStr (h url)) = some b →
      slotNamesCanonical b (2 ^ 64) ∧ (b.map Prod.fst).Nodup ∧
      matchCount b url ≤ 1 ∧
      (matchCount b url = 0 → specFreshSlot b < 2 ^ 64) := by
    intro b hb
    obtain ⟨hc, hn, hm, _⟩ := hbucket b hb
    refine ⟨?_, hn, hm, fun _ => specFreshSlot_lt b hc⟩
    intro p hp
    obtain ⟨n, h1, h2⟩ := hc p hp
    exact ⟨n, by omega, h2⟩
  constructor
  · constructor
    · -- (a) on an existing bucket
      intro b hb
      obtain ⟨hc, hn, hm, hrec⟩ := hbucket b hb
      obtain ⟨hc', hn', hm', hhead⟩ := hbucket' b hb
      obtain ⟨b', iT, hiTlt, hput, hmemT, hnd', hcanon', huniq, hdisj⟩ :=
        put_in_cache_existing_bucket h fs url d1 b hb hc' hn' hm' hhead
      refine ⟨b', hput, ?_⟩
      rcases hdisj with ⟨slotT, hmemB, hmatchB, hmap, hframe⟩ | ⟨h0', hfr, hbeq⟩
      · left
        refine ⟨iT, slotT, mem_alookup b _ _ hn hmemB, ?_, hmap, ?_, hframe⟩
        · -- the matched record is exactly the key
          simp only [slotMatches] at hmatchB
          cases hk : slotT.key with
          | none => rw [hk] at hmatchB; exact Bool.noConfusion hmatchB
          | some r =>
            rw [hk] at hmatchB
            simp only [decide_eq_true_eq] at hmatchB
            have hstable := hrec _ hmemB r hk
            have hru : r = url := by rw [← hstable]; exact hmatchB
            rw [hru]
        · exact mem_alookup b' _ _ hnd' hmemT
      · right
        exact ⟨h0', hfr ▸ hbeq⟩
    · -- (a) on an absent bucket: slot 0 of the new bucket
      intro hb
      exact put_in_cache_fresh_bucket h fs url d1 hb
  · -- (b) two puts, one slot, get returns the second payload
    obtain ⟨fs1, b1, hput1, hlook1, hcanon1, hnd1, iT1, _, hmem1, huniq1,
      hcnt1⟩ := put_in_cache_wf h fs url d1 htrim hbucket'
    have hbucket2 : ∀ b, alookup fs1 (natToStr (h url)) = some b →
        slotNamesCanonical b (2 ^ 64) ∧ (b.map Prod.fst).Nodup ∧
        matchCount b url ≤ 1 ∧
        (matchCount b url = 0 → specFreshSlot b < 2 ^ 64) := by
      intro b hb2
      rw [hlook1] at hb2
      have hbe : b = b1 := (Option.some.inj hb2).symm
      subst hbe
      refine ⟨hcanon1, hnd1, le_of_eq hcnt1, ?_⟩
      intro h0'
      rw [hcnt1] at h0'
      exact absurd h0' one_ne_zero
    obtain ⟨fs2, b2, hput2, hlook2, hcanon2, hnd2, iT2, _, hmem2, huniq2,
      _⟩ := put_in_cache_wf h fs1 url d2 htrim hbucket2
    refine ⟨fs1, fs2, hput1, hput2, ?_, ?_⟩
    · -- exactly one slot of the bucket holds the key record `url`
      unfold countSlotsFor
      rw [hlook2]
      show (List.filter (fun p => decide (p.2.key = some url)) b2).length = 1
      rw [filter_eq_singleton_of_uniq b2
        (fun p => decide (p.2.key = some url)) _
        (List.Nodup.of_map _ hnd2) hmem2 (by simp) ?_]
      · rfl
      · intro p hp hpk
        simp only [decide_eq_true_eq] at hpk
        refine huniq2 p hp ?_
        simp [slotMatches, hpk, htrim]
    · exact get_from_cache_hit h fs2 url b2 iT2
        { key := some url, data := some d2 } d2 hlook2 hcanon2 hnd2
        hmem2 (by simp [slotMatches, htrim]) huniq2 rfl

/-- C2, witness: the overwrite scenario at the concrete key `"k"` with
payloads `"a"` then `"b"` on an empty initial tree. -/
theorem C2_put_target_slot_witness :
    ((∀ b, alookup ([] : FS) (natToStr (h0 ['k'])) = some b →
      ∃ b', put_in_cache h0 [] ['k'] ['k'] ['a'] =
          .val (aset ([] : FS) (natToStr (h0 ['k'])) b') ∧
        ((∃ i slot, alookup b (natToStr i) = some slot ∧
            slot.key = some ['k'] ∧
            b'.map Prod.fst = b.map Prod.fst ∧
            alookup b' (natToStr i) =
              some { key := some ['k'], data := some ['a'] } ∧
            (∀ nm, nm ≠ natToStr i → alookup b' nm = alookup b nm)) ∨
         (matchCount b ['k'] = 0 ∧
            b' = b ++ [(natToStr (specFreshSlot b),
              { key := some ['k'], data := some ['a'] })]))) ∧
     (alookup ([] : FS) (natToStr (h0 ['k'])) = none →
        put_in_cache h0 [] ['k'] ['k'] ['a'] =
          .val (aset (([] : FS) ++ [(natToStr (h0 ['k']), [])]) (natToStr (h0 ['k']))
            [(natToStr 0, { key := some ['k'], data := some ['a'] })]))) ∧
    (∃ fs1 fs2, put_in_cache h0 [] ['k'] ['k'] ['a'] = .val fs1 ∧
      put_in_cache h0 fs1 ['k'] ['k'] ['b'] = .val fs2 ∧
      countSlotsFor fs2 (natToStr (h0 ['k'])) ['k'] = 1 ∧
      get_from_cache h0 fs2 ['k'] = .ok ['b']) :=
  C2_put_target_slot h0 [] ['k'] ['a'] ['b'] (by decide)
    (fun b hb => Option.noConfusion hb)

/-- C3 (amended): whenever `Cache::get` returns an error, that error is the
remote fetch failure, and the fetch collaborator was invoked; a storage
failure during the cache lookup never surfaces as a local error — it is
treated as a miss that triggers the fetch (see the counterexample). -/
theorem C3_failed_get_reports_fetch_error (h : Str → Nat) (fs : FS)
    (url : Str) (fetch : Str → Except Str Str) (e : Str) (inv : Bool)
    (fs' : FS)
    (hres : cache_get h fs url fetch = .val (.error e, inv, fs')) :
    fetch url = .error e ∧ inv = true ∧ fs' = fs := by
  unfold cache_get at hres
  cases hg : get_from_cache h fs url with
  | ok r =>
    rw [hg] at hres
    simp at hres
  | panicked =>
    rw [hg] at hres
    exact PRes.noConfusion hres
  | err =>
    rw [hg] at hres
    cases hf : fetch url with
    | error e' =>
      rw [hf] at hres
      simp at hres
      obtain ⟨he, hi, hfs⟩ := hres
      exact ⟨congrArg Except.error he, hi, hfs.symm⟩
    | ok resp =>
      rw [hf] at hres
      simp at hres
      cases hput : put_in_cache h fs url url resp with
      | panicked =>
        rw [hput] at hres
        simp at hres
      | val fs1 =>
        rw [hput] at hres
        simp at hres

/-- C3, witness: a failing fetch on an empty cache propagates its error,
with the fetch collaborator invoked and the tree unchanged. -/
theorem C3_failed_get_reports_fetch_error_witness :
    (fun _ => (Except.error ['x'] : Except Str Str)) ['k'] =
      Except.error ['x'] ∧ true = true ∧ ([] : FS) = [] :=
  C3_failed_get_reports_fetch_error h0 [] ['k']
    (fun _ => Except.error ['x']) ['x'] true [] (by rfl)

/-! ## Claim C6: corrupt-slot resilience -/

/-- C6: during a bucket lookup, a slot whose key record is missing or
unreadable is skipped without failing the whole lookup: in a well-formed
bucket containing such a slot and a (different) valid slot whose key record
matches the requested key, `get_from_cache` still returns the valid slot's
payload in full. -/
theorem C6_corrupt_slot_skipped (h : Str → Nat) (fs : FS)
    (url payload : Str) (b : Bucket) (nmBad : Str) (slotBad : Slot)
    (iG : Nat) (slotG : Slot)
    (hb : alookup fs (natToStr (h url)) = some b)
    (hcanon : slotNamesCanonical b (2 ^ 64))
    (hnd : (b.map Prod.fst).Nodup)
    (_hbadMem : (nmBad, slotBad) ∈ b)
    (hbadKey : slotBad.key = none)
    (hgoodMem : (natToStr iG, slotG) ∈ b)
    (hgoodMatch : slotMatches slotG url = true)
    (hgoodData : slotG.data = some payload)
    (huniq : ∀ p ∈ b, slotMatches p.2 url = true → p = (natToStr iG, slotG)) :
    get_from_cache h fs url = .ok payload ∧
    (nmBad, slotBad) ≠ (natToStr iG, slotG) := by
  constructor
  · exact get_from_cache_hit h fs url b iG slotG payload hb hcanon hnd
      hgoodMem hgoodMatch huniq hgoodData
  · intro he
    have hslot : slotBad = slotG := congrArg Prod.snd he
    rw [← hslot] at hgoodMatch
    simp [slotMatches, hbadKey] at hgoodMatch

/-- C6, witness: a bucket with an unreadable slot `5` and a valid slot `3`
for key `"k"`; the lookup returns slot 3's payload. -/
theorem C6_corrupt_slot_skipped_witness :
    get_from_cache h0
      [(natToStr 0,
        [(natToStr 5, { key := none, data := some ['z'] }),
         (natToStr 3, { key := some ['k'], data := some ['p'] })])]
      ['k'] = .ok ['p'] ∧
    (natToStr 5, ({ key := none, data := some ['z'] } : Slot)) ≠
      (natToStr 3, { key := some ['k'], data := some ['p'] }) :=
  C6_corrupt_slot_skipped h0 _ ['k'] ['p'] _ (natToStr 5)
    { key := none, data := some ['z'] } 3
    { key := some ['k'], data := some ['p'] }
    rfl
    (by
      intro p hp
      rcases List.mem_cons.mp hp with rfl | hp
      · exact ⟨5, by norm_num, rfl⟩
      · rcases List.mem_cons.mp hp with rfl | hp
        · exact ⟨3, by norm_num, rfl⟩
        · simp at hp)
    (by decide)
    (List.mem_cons_self _ _)
    rfl
    (List.mem_cons_of_mem _ (List.mem_cons_self _ _))
    (by decide)
    rfl
    (by decide)

/-- C7 (amended): for every in-memory index whose keys are pairwise
distinct, fixed by trimming, newline-free, and split cleanly at the first
occurrence of the separator (in particular contain no `"%%%"`), and whose
timestamps are valid calendar times (in the model's four-digit-year range),
persisting the index with `update_file_content` and loading the resulting
file with `loadIndex` yields exactly the same records, with each timestamp
truncated to second granularity. -/
theorem C7_index_roundtrip (entries : IndexEntries)
    (hnd : (entries.map Prod.fst).Nodup)
    (hkeys : ∀ p ∈ entries, rustTrim p.1 = p.1 ∧ '\n' ∉ p.1 ∧
      splitOnce ENTRY_SPLITTER (p.1 ++ ENTRY_SPLITTER) = some (p.1, []))
    (htimes : ∀ p ∈ entries, Time.valid p.2) :
    loadIndex (update_file_content entries) =
      entries.map (fun p => (p.1, truncSec p.2)) := by
  cases hE : entries with
  | nil => rfl
  | cons p0 rest =>
    subst hE
    unfold loadIndex
    rw [rustLines_update_file _ (by simp) (fun q hq => (hkeys q hq).2.1)]
    rw [List.foldl_cons]
    rw [show parseIndexLine [] [] = [] from rfl]
    rw [foldl_parse_lines _
      (fun q hq => ⟨(hkeys q hq).1, (hkeys q hq).2.2⟩) htimes []]
    rw [foldl_ainsert_append _ [] hnd ?_]
    · simp
    · intro x hx
      simp

/-- C7, witness: a single record with key `"k"` and a timestamp with a
nonzero sub-second component round-trips to the same key with the
timestamp truncated to the second. -/
theorem C7_index_roundtrip_witness :
    loadIndex (update_file_content [(['k'], Time.mk 2021 12 31 23 59 58 123)]) =
    [(['k'], truncSec (Time.mk 2021 12 31 23 59 58 123))] :=
  C7_index_roundtrip _ (by simp)
    (by
      intro p hp
      rw [List.mem_singleton] at hp
      subst hp
      refine ⟨by decide, by decide, by decide⟩)
    (by
      intro p hp
      rw [List.mem_singleton] at hp
      subst hp
      decide)

/-! ## Claim C5: malformed slot directory names -/

/-- C5, counterexample: a bucket containing a child directory named `"abc"`
(not a nonnegative integer) makes both the lookup scan and the insertion
scan hit the `usize::from_str(...).unwrap()` panics at cache.rs:203 and
cache.rs:242 — the entry is not skipped and the scans abort. -/
theorem C5_counterexample :
    check_subdirs_for_url
      [(natToStr 0, [(['a', 'b', 'c'], { key := some ['k'], data := some ['d'] })])]
      ['k'] (natToStr 0) = PRes.panicked ∧
    put_in_cache h0
      [(natToStr 0, [(['a', 'b', 'c'], { key := some ['k'], data := some ['d'] })])]
      ['k'] ['k'] ['d'] = PRes.panicked := by
  constructor <;> rfl

/-- C5 (amended): a bucket child directory whose name does not parse as a
nonnegative integer makes both the lookup scan and the insertion scan hit
the `usize::from_str(...).unwrap()` panic (cache.rs:203 and cache.rs:242):
the malformed entry is not skipped, and both scans abort. -/
theorem C5_malformed_slot_name_aborts (h : Str → Nat) (fs : FS)
    (url meta data : Str) (b : Bucket)
    (hb : alookup fs (natToStr (h url)) = some b)
    (hbad : ∃ nm ∈ b.map Prod.fst, parseUsize nm = none) :
    check_subdirs_for_url fs url (natToStr (h url)) = PRes.panicked ∧
    put_in_cache h fs url meta data = PRes.panicked := by
  obtain ⟨nm, hnm, hpn⟩ := hbad
  have htrav := traverseOpt_none_of_mem parseUsize _ nm hnm hpn
  constructor
  · rw [check_subdirs_for_url]
    simp only [hb, htrav]
  · unfold put_in_cache
    simp only [hb, htrav]

/-- C5, witness: a bucket for key `"k"` containing the malformed child
directory `"xy"` panics both scans. -/
theorem C5_malformed_slot_name_aborts_witness :
    check_subdirs_for_url
      [(natToStr 0, [(['x', 'y'], { key := some ['k'], data := some ['d'] })])]
      ['k'] (natToStr (h0 ['k'])) = PRes.panicked ∧
    put_in_cache h0
      [(natToStr 0, [(['x', 'y'], { key := some ['k'], data := some ['d'] })])]
      ['k'] ['m'] ['d'] = PRes.panicked :=
  C5_malformed_slot_name_aborts h0 _ ['k'] ['m'] ['d'] _ rfl
    ⟨['x', 'y'], List.mem_cons_self _ _, by decide⟩

end RustCache
